import Mathlib

/-!
Verification development for the D&D 5e summons assistant's creature pipeline:
the template/inheritance resolution engine (`processMonsterCopy`,
`mergeMonsterData`, `processMonsterVariants`), the modification interpreter
(`applyModifications`, `applyRootModifications`), the field normalizer
(`getArmorClass`, `extract5eToolsAC`) and the inline markup parser
(`parseFormattingTags`, `parseDnd5eToolsText`), shallowly embedded from the
JavaScript sources.

Conventions of the embedding:
* JavaScript values are modelled by the `JSON` inductive below, with `undef`
  for `undefined`.  Numbers are modelled as integers (no claim below involves
  fractional arithmetic).
* JavaScript objects are association lists in insertion order; property
  assignment updates the first matching key in place or appends a fresh key,
  mirroring JS object semantics.
* In-place mutation of a record becomes explicit state passing: a JS function
  mutating its argument is embedded as a function returning the new value.
  For the one claim that is about object identity rather than values
  (variant-expansion independence) a heap-passing embedding is given as well.
* Code that can throw (the modification interpreter, which performs method
  calls and strict-mode property writes on data-dependent receivers) returns
  `Except String`.  Plain property reads are modelled by `jget`, which yields
  `undef` for missing keys; reads on `null`/`undefined` receivers (a JS
  TypeError) are not modelled -- every theorem below constrains the receiver
  to an object before such a read happens.
-/

namespace D5e

/-- A JavaScript value as handled by the creature pipeline. -/
inductive JSON where
  | undef : JSON
  | null : JSON
  | bool (b : Bool) : JSON
  | num (n : Int) : JSON
  | str (s : String) : JSON
  | arr (elems : List JSON) : JSON
  | obj (fields : List (String × JSON)) : JSON
deriving Repr

/-- Keys of an object's field list. -/
def jKeys (fs : List (String × JSON)) : List String := fs.map Prod.fst

/-- First-match lookup in an object's field list. -/
def jLookup : List (String × JSON) → String → Option JSON
  | [], _ => none
  | (k', v) :: rest, k => if k' = k then some v else jLookup rest k

/-- JS property assignment on a field list: update the first occurrence of
the key in place, or append the key at the end. -/
def setKey : List (String × JSON) → String → JSON → List (String × JSON)
  | [], k, v => [(k, v)]
  | (k', v') :: rest, k, v =>
      if k' = k then (k', v) :: rest else (k', v') :: setKey rest k v

/-- JS property read `v[k]`: `undefined` for a missing key and for any
non-object receiver (string `length` etc. and reads on `null`, which throw
in JS, are not modelled; no theorem below reaches them). -/
def jget (v : JSON) (k : String) : JSON :=
  match v with
  | .obj fs => (jLookup fs k).getD .undef
  | _ => (.undef)

/-- JS property write `v[k] = x` for an object receiver.  Writes to array
expando properties and strict-mode writes to primitives are modelled
elsewhere (`jsetW`) where a claim depends on them. -/
def jset (v : JSON) (k : String) (x : JSON) : JSON :=
  match v with
  | .obj fs => .obj (setKey fs k x)
  | other => other

/-- JS truthiness. -/
def jsTruthy : JSON → Bool
  | .undef => false
  | .null => false
  | .bool b => b
  | .num n => n != 0
  | .str s => s ≠ ""
  | .arr _ => true
  | .obj _ => true

/-- `Array.isArray`. -/
def isArr : JSON → Bool
  | .arr _ => true
  | _ => false

/-- `v !== null && typeof v === 'object'` (arrays included). -/
def isObjLike : JSON → Bool
  | .arr _ => true
  | .obj _ => true
  | _ => false

/-- Is the value a plain object? -/
def isObj : JSON → Bool
  | .obj _ => true
  | _ => false

/-- The `in` operator restricted to plain objects (array index membership is
never exercised by the functions below). -/
def hasKey (v : JSON) (k : String) : Bool :=
  match v with
  | .obj fs => (jLookup fs k).isSome
  | _ => false

/-- JS strict equality `===` on the value domain.  Comparisons between two
objects or arrays are reference comparisons in JS; the value embedding
conservatively returns `false` for them (the functions below only compare
names and other primitives). -/
def jsStrictEq : JSON → JSON → Bool
  | .undef, .undef => true
  | .null, .null => true
  | .bool a, .bool b => a == b
  | .num a, .num b => a == b
  | .str a, .str b => a == b
  | _, _ => false

/-- Decimal rendering of a natural number, digit by digit, driven by a
fuel argument so the recursion is structural (each step divides by ten,
so `n` itself is always enough fuel). -/
def natToDecA : Nat → Nat → List Char
  | 0, n => [Nat.digitChar n]
  | fuel + 1, n =>
    if n < 10 then [Nat.digitChar n]
    else natToDecA fuel (n / 10) ++ [Nat.digitChar (n % 10)]

/-- Decimal rendering of a natural number (the strings JS uses as keys
when an array is spread into an object literal). -/
def natToDecL (n : Nat) : List Char := natToDecA n n

/-- Decimal rendering of a natural number as a string. -/
def natToDec (n : Nat) : String := String.mk (natToDecL n)

/-- Decode a decimal digit string back to a natural number (left inverse
of `natToDecL`, used to prove index keys distinct). -/
def decDecode (l : List Char) : Nat :=
  l.foldl (fun a c => a * 10 + (c.toNat - '0'.toNat)) 0

/-- The keys a spread appends after an existing key list `ks`: first
occurrences of keys not already present, in order. -/
def freshKeysStr (ks : List String) : List String → List String
  | [] => []
  | k :: l => if k ∈ ks then freshKeysStr ks l
              else k :: freshKeysStr (ks ++ [k]) l

/-- `Object.entries` of an array: index keys paired with elements. -/
def idxEnts (xs : List JSON) : List (String × JSON) :=
  xs.enum.map (fun p => (natToDec p.1, p.2))

/-- `Object.entries` of a string: index keys paired with one-character
strings. -/
def strEnts (s : String) : List (String × JSON) :=
  s.toList.enum.map (fun p => (natToDec p.1, .str (String.mk [p.2])))

/-- `Object.entries`: fields of an object, indexed elements of an array,
indexed characters of a string, nothing for other values. -/
def entsOf : JSON → List (String × JSON)
  | .obj fs => fs
  | .arr xs => idxEnts xs
  | .str s => strEnts s
  | _ => []

/-- The object-literal spread `{...a, ...b}` on entry lists: fold property
assignment of `b`'s entries over `a`. -/
def spreadEnts (a b : List (String × JSON)) : List (String × JSON) :=
  b.foldl (fun acc kv => setKey acc kv.1 kv.2) a

mutual
/-- Well-formedness of a JSON-parsed value: no `undefined` anywhere and no
duplicate keys in any object, as guaranteed for records loaded from JSON
text. -/
def jwf : JSON → Bool
  | .undef => false
  | .null => true
  | .bool _ => true
  | .num _ => true
  | .str _ => true
  | .arr xs => jwfList xs
  | .obj fs => ((jKeys fs).Nodup : Bool) && jwfFields fs

/-- Well-formedness of every element of a list of values. -/
def jwfList : List JSON → Bool
  | [] => true
  | x :: xs => jwf x && jwfList xs

/-- Well-formedness of every value of a field list. -/
def jwfFields : List (String × JSON) → Bool
  | [] => true
  | kv :: fs => jwf kv.2 && jwfFields fs
end

/-- `JSON.parse(JSON.stringify(x))`, the deep-copy idiom of the source.  On
the value domain of every theorem below (no `undefined`, no functions) the
round trip is the identity, so it is modelled as such; freshness of the copy
is captured by the heap embedding where a claim depends on it. -/
def deepCopy (v : JSON) : JSON := v

mutual
/-- JS string coercion `${v}` as used by the interpreter's template
literals.  Faithful on primitives; array/object coercion follows
`Array.prototype.toString`/`"[object Object]"`. -/
def jsToString : JSON → String
  | .undef => "undefined"
  | .null => "null"
  | .bool b => if b then "true" else "false"
  | .num n => if n < 0 then "-" ++ natToDec (-n).toNat else natToDec n.toNat
  | .str s => s
  | .arr xs => jsToStringList xs
  | .obj _ => "[object Object]"

/-- Comma-joined coercion of array elements. -/
def jsToStringList : List JSON → String
  | [] => ""
  | [x] => jsToString x
  | x :: y :: rest => jsToString x ++ "," ++ jsToStringList (y :: rest)
end

/-- Substring test on character lists, as used by `String.prototype.includes`. -/
def containsSub : List Char → List Char → Bool
  | l, pat =>
    if pat.isPrefixOf l then true
    else match l with
      | [] => false
      | _ :: t => containsSub t pat

/-! ### Markup parser

The source replaces each directive family with one global regex
`String.prototype.replace` call.  Each call is embedded as a left-to-right
scanner over the character list: at every position it tries the pattern; on
a match it emits the replacement and resumes after the matched text,
otherwise it emits the character and moves one position on — exactly the
global-regex scanning discipline.  The scanners recurse on an explicit fuel
(every step consumes at least one character, so fuel `l.length` runs the
scan to completion); this keeps them kernel-computable. -/

/-- JS word character, the `\w` class: ASCII letters, digits, underscore. -/
def isWordChar (c : Char) : Bool := c.isAlphanum || c = '_'

/-- Global replacement of a literal pattern (a regex without
metacharacters), e.g. `/{@atk mw}/g`. -/
def scanLit (fuel : Nat) (pat rep : List Char) (l : List Char) : List Char :=
  match fuel, l with
  | 0, l => l
  | _ + 1, [] => []
  | f + 1, c :: rest =>
    if pat.isPrefixOf (c :: rest) && !pat.isEmpty then
      rep ++ scanLit f pat rep ((c :: rest).drop pat.length)
    else
      c :: scanLit f pat rep rest

/-- Global replacement of `PRE(\d+)}` where `PRE` is a literal prefix such
as `{@hit ` — the shape of the hit/DC/recharge-number directives.  `mk`
builds the replacement from the captured digits. -/
def scanNumTag (fuel : Nat) (pre : List Char) (mk : List Char → List Char)
    (l : List Char) : List Char :=
  match fuel, l with
  | 0, l => l
  | _ + 1, [] => []
  | f + 1, c :: rest =>
    if pre.isPrefixOf (c :: rest) then
      let after := (c :: rest).drop pre.length
      let ds := after.takeWhile Char.isDigit
      if !ds.isEmpty && (after.drop ds.length).head? = some '\x7d' then
        mk ds ++ scanNumTag f pre mk (after.drop (ds.length + 1))
      else
        c :: scanNumTag f pre mk rest
    else
      c :: scanNumTag f pre mk rest

/-- Global replacement of `PRE([^}]+)}` — the shape of the
damage/condition/dice/spell directives, whose replacement is the captured
argument itself. -/
def scanCapTag (fuel : Nat) (pre : List Char) (l : List Char) : List Char :=
  match fuel, l with
  | 0, l => l
  | _ + 1, [] => []
  | f + 1, c :: rest =>
    if pre.isPrefixOf (c :: rest) then
      let after := (c :: rest).drop pre.length
      let cap := after.takeWhile (fun x => x ≠ '\x7d')
      if !cap.isEmpty && (after.drop cap.length).head? = some '\x7d' then
        cap ++ scanCapTag f pre (after.drop (cap.length + 1))
      else
        c :: scanCapTag f pre rest
    else
      c :: scanCapTag f pre rest

/-- Global replacement of `{@recharge (\d+)-(\d+)}` with
`Recharge $1–$2` (en dash), the range form of the recharge directive. -/
def scanRechargeRange (fuel : Nat) (l : List Char) : List Char :=
  match fuel, l with
  | 0, l => l
  | _ + 1, [] => []
  | f + 1, c :: rest =>
    let pre := "\x7b@recharge ".toList
    if pre.isPrefixOf (c :: rest) then
      let after := (c :: rest).drop pre.length
      let d1 := after.takeWhile Char.isDigit
      let after1 := after.drop d1.length
      if !d1.isEmpty && after1.head? = some '-' then
        let d2 := (after1.drop 1).takeWhile Char.isDigit
        if !d2.isEmpty && ((after1.drop 1).drop d2.length).head? = some '\x7d' then
          ("Recharge ".toList ++ d1 ++ ['–'] ++ d2)
            ++ scanRechargeRange f ((after1.drop 1).drop (d2.length + 1))
        else c :: scanRechargeRange f rest
      else c :: scanRechargeRange f rest
    else c :: scanRechargeRange f rest

/-- Global replacement of `{@recharge (\d+)(?:-(\d+))?}` with
`Recharge $1` or `Recharge $1-$2` — the combined recharge pattern of the
data-manager parser. -/
def scanRechargeCombined (fuel : Nat) (l : List Char) : List Char :=
  match fuel, l with
  | 0, l => l
  | _ + 1, [] => []
  | f + 1, c :: rest =>
    let pre := "\x7b@recharge ".toList
    if pre.isPrefixOf (c :: rest) then
      let after := (c :: rest).drop pre.length
      let d1 := after.takeWhile Char.isDigit
      let after1 := after.drop d1.length
      if !d1.isEmpty && after1.head? = some '\x7d' then
        ("Recharge ".toList ++ d1) ++ scanRechargeCombined f (after1.drop 1)
      else if !d1.isEmpty && after1.head? = some '-' then
        let d2 := (after1.drop 1).takeWhile Char.isDigit
        if !d2.isEmpty && ((after1.drop 1).drop d2.length).head? = some '\x7d' then
          ("Recharge ".toList ++ d1 ++ ['-'] ++ d2)
            ++ scanRechargeCombined f ((after1.drop 1).drop (d2.length + 1))
        else c :: scanRechargeCombined f rest
      else c :: scanRechargeCombined f rest
    else c :: scanRechargeCombined f rest

/-- `none` or a non-word character: a word boundary on that side. -/
def boundaryAt : Option Char → Bool
  | none => true
  | some c => !isWordChar c

/-- Global replacement of a bare word token with word boundaries,
`/\bTOK\b/g`; `prev` is the last character already scanned. -/
def scanWord (fuel : Nat) (tok rep : List Char) (prev : Option Char)
    (l : List Char) : List Char :=
  match fuel, l with
  | 0, l => l
  | _ + 1, [] => []
  | f + 1, c :: rest =>
    if tok.isPrefixOf (c :: rest) && !tok.isEmpty && boundaryAt prev
       && boundaryAt ((c :: rest).drop tok.length).head? then
      rep ++ scanWord f tok rep tok.getLast? ((c :: rest).drop tok.length)
    else
      c :: scanWord f tok rep (some c) rest

/-- Run a literal replacement over a whole character list. -/
def runLit (pat rep : String) (l : List Char) : List Char :=
  scanLit l.length pat.toList rep.toList l

/-- Run a numeric-argument tag replacement over a whole character list. -/
def runNumTag (pre : String) (mk : List Char → List Char) (l : List Char) :
    List Char :=
  scanNumTag l.length pre.toList mk l

/-- Run a captured-argument tag replacement over a whole character list. -/
def runCapTag (pre : String) (l : List Char) : List Char :=
  scanCapTag l.length pre.toList l

/-- Run a word-token replacement over a whole character list. -/
def runWord (tok rep : String) (l : List Char) : List Char :=
  scanWord l.length tok.toList rep.toList none l

/-- The context object handed to the markup parser (proficiency bonus and
spell level as replacement strings, absent by default). -/
structure TagContext where
  proficiencyBonus : Option String := none
  spellLevel : Option String := none

/-- `context.proficiencyBonus || 'your proficiency bonus'` (the empty
string is falsy). -/
def pbText (context : TagContext) : String :=
  match context.proficiencyBonus with
  | some s => if s = "" then "your proficiency bonus" else s
  | none => "your proficiency bonus"

/-- `context.spellLevel || "the spell's level"`. -/
def slText (context : TagContext) : String :=
  match context.spellLevel with
  | some s => if s = "" then "the spell's level" else s
  | none => "the spell's level"

/-- The replacement pipeline of `parseFormattingTags` on a character list,
in the source's statement order. -/
def parseTagsPipeline (context : TagContext) (l : List Char) : List Char :=
  let l := runLit "\x7b@atk mw\x7d" "Melee Weapon Attack:" l
  let l := runLit "\x7b@atk rw\x7d" "Ranged Weapon Attack:" l
  let l := runLit "\x7b@atk ms\x7d" "Melee Spell Attack:" l
  let l := runLit "\x7b@atk rs\x7d" "Ranged Spell Attack:" l
  let l := runNumTag "\x7b@hit " (fun ds => '+' :: ds) l
  let l := runLit "\x7b@hitYourSpellAttack\x7d" "+ your spell attack modifier" l
  let l := runCapTag "\x7b@damage " l
  let l := runCapTag "\x7b@condition " l
  let l := runNumTag "\x7b@dc " (fun ds => "DC ".toList ++ ds) l
  let l := runWord "PB" (pbText context) l
  let l := runWord "summonSpellLevel" (slText context) l
  let l := runLit "\x7b@recharge\x7d" "Recharge" l
  let l := runNumTag "\x7b@recharge " (fun ds => "Recharge ".toList ++ ds) l
  let l := scanRechargeRange l.length l
  let l := runLit "\x7b@h\x7d" "Hit: " l
  l

/-- `parseFormattingTags` of the stat-block renderer: guard non-strings and
the empty string, then run the replacement pipeline. -/
def parseFormattingTags (text : JSON) (context : TagContext) : String :=
  match text with
  | .str s => if s = "" then "" else String.mk (parseTagsPipeline context s.toList)
  | _ => ""

/-- A JS whitespace character, the full `\s` class: tab, line feed,
vertical tab, form feed, carriage return, space, no-break space, ogham
space mark, the en-quad..hair-space range, line separator, paragraph
separator, narrow no-break space, medium mathematical space, ideographic
space and the byte-order mark. -/
def jsWS (c : Char) : Bool :=
  c = ' ' || c = '\t' || c = '\n' || c = '\r' || c.toNat = 11 || c.toNat = 12
    || c.toNat = 0xa0 || c.toNat = 0x1680
    || (0x2000 ≤ c.toNat && c.toNat ≤ 0x200a)
    || c.toNat = 0x2028 || c.toNat = 0x2029 || c.toNat = 0x202f
    || c.toNat = 0x205f || c.toNat = 0x3000 || c.toNat = 0xfeff

/-- `/\s+/g → ' '`: collapse every whitespace run to a single space. -/
def collapseWS : List Char → List Char
  | [] => []
  | [c] => if jsWS c then [' '] else [c]
  | c1 :: c2 :: rest =>
    if jsWS c1 && jsWS c2 then collapseWS (c2 :: rest)
    else (if jsWS c1 then ' ' else c1) :: collapseWS (c2 :: rest)

/-- `String.prototype.trim`. -/
def trimWS (l : List Char) : List Char :=
  ((l.dropWhile jsWS).reverse.dropWhile jsWS).reverse

/-- `.replace(/\s+/g, ' ').trim()`, the whitespace cleanup ending the
data-manager parser. -/
def normWS (l : List Char) : List Char := trimWS (collapseWS l)

/-- No two adjacent whitespace characters. -/
def noWSPair (a b : Char) : Prop := ¬(jsWS a = true ∧ jsWS b = true)

/-- The replacement pipeline of `parseDnd5eToolsText` on a character list,
in the source's statement order. -/
def parse5eTextPipeline (l : List Char) : List Char :=
  let l := runLit "\x7b@atk mw\x7d" "Melee Weapon Attack:" l
  let l := runLit "\x7b@atk rw\x7d" "Ranged Weapon Attack:" l
  let l := runLit "\x7b@atk ms\x7d" "Melee Spell Attack:" l
  let l := runLit "\x7b@atk rs\x7d" "Ranged Spell Attack:" l
  let l := runNumTag "\x7b@hit " (fun ds => '+' :: ds) l
  let l := runLit "\x7b@h\x7d" "Hit: " l
  let l := runCapTag "\x7b@damage " l
  let l := runCapTag "\x7b@dice " l
  let l := runCapTag "\x7b@condition " l
  let l := runCapTag "\x7b@spell " l
  let l := runNumTag "\x7b@dc " (fun ds => "DC ".toList ++ ds) l
  let l := runLit "\x7b@recharge\x7d" "Recharge" l
  let l := scanRechargeCombined l.length l
  normWS l

/-- `parseDnd5eToolsText` of the data manager: guard non-strings and the
empty string, run the tag replacements, then collapse and trim
whitespace. -/
def parseDnd5eToolsText (text : JSON) : String :=
  match text with
  | .str s => if s = "" then "" else String.mk (parse5eTextPipeline s.toList)
  | _ => ""

/-! ### Modification interpreter

`applyModifications` mutates its record argument in JS; the embedding
passes the record explicitly and returns the new value.  The interpreter
runs in strict mode (the renderer is an ES module), so a property write on
a primitive receiver and a method call on a receiver lacking the method
throw `TypeError`s; those paths return `Except.error`. -/

/-- Literal global find/replace inside a string field.  The source builds
`new RegExp(mod.replace, 'g')` and replaces with `mod.with`; for a
metacharacter-free pattern and a `$`-free replacement the regex compiles,
matches literally and inserts the replacement literally, which is exactly
this function (an empty pattern is a no-op here).  `applyArrMod` guards
every use with `plainReplaceTxt` and refuses other pairs with an error, so
no theorem relies on this function outside that exact regime. -/
def jsReplaceAllStr (pat rep s : String) : String :=
  String.mk (runLit pat rep s.toList)

/-- A character the `RegExp` constructor treats specially.  A pattern free
of these is a syntactically valid regex that matches literally; a pattern
containing one may throw `SyntaxError` at construction (e.g. `(`) or match
non-literally. -/
def regexMeta (c : Char) : Bool :=
  c = '.' || c = '*' || c = '+' || c = '?' || c = '^' || c = '$'
    || c = '\x7b' || c = '\x7d' || c = '(' || c = ')' || c = '|'
    || c = '[' || c = ']' || c = '\\'

/-- The `replaceTxt` pattern/replacement pairs the embedding models
exactly: a metacharacter-free pattern (`new RegExp(pat, 'g')` compiles and
matches literally) and a `$`-free replacement (`String.prototype.replace`
inserts it literally). -/
def plainReplaceTxt (pat rep : List Char) : Bool :=
  pat.all (fun c => !(regexMeta c)) && rep.all (fun c => !(c = '$' : Bool))

mutual
/-- The recursive text replacement of `replaceTxt` (`replaceInObject` in
the source): replace in every string, descend into arrays and objects,
leave other values alone. -/
def replaceDeep (pat rep : String) : JSON → JSON
  | .str s => .str (jsReplaceAllStr pat rep s)
  | .arr xs => .arr (replaceDeepList pat rep xs)
  | .obj fs => .obj (replaceDeepFields pat rep fs)
  | x => x

/-- `replaceDeep` over array elements. -/
def replaceDeepList (pat rep : String) : List JSON → List JSON
  | [] => []
  | x :: xs => replaceDeep pat rep x :: replaceDeepList pat rep xs

/-- `replaceDeep` over object field values. -/
def replaceDeepFields (pat rep : String) :
    List (String × JSON) → List (String × JSON)
  | [] => []
  | kv :: fs => (kv.1, replaceDeep pat rep kv.2) :: replaceDeepFields pat rep fs
end

/-- `item && typeof item === 'object' ? item.name : item` — the name used
to match array entries. -/
def itemName (item : JSON) : JSON :=
  if jsTruthy item && isObjLike item then jget item "name" else item

/-- Strict-mode property write `v[k] = x`: fine on objects, a silent
expando write on arrays (invisible to this model, which no theorem
observes), a `TypeError` on primitives, `null` and `undefined`. -/
def jsetW (v : JSON) (k : String) (x : JSON) : Except String JSON :=
  match v with
  | .obj fs => pure (.obj (setKey fs k x))
  | .arr xs => pure (.arr xs)
  | _ => .error "TypeError: cannot create property on a primitive"

/-- Is the mode one of the three that auto-initialize a missing target
property to an empty array? -/
def isInitMode (mode : JSON) : Bool :=
  jsStrictEq mode (.str "appendArr") || jsStrictEq mode (.str "prependArr")
    || jsStrictEq mode (.str "appendIfNotExistsArr")

/-- One modification from an array-valued `_mod` entry (the `switch` body
of `applyModifications`).  The source compiles `new RegExp(mod.replace)`
per string item inside `replaceTxt`; for a non-plain pair (metacharacter in
the pattern or `$` in the replacement) that may throw `SyntaxError` or
apply regex rather than literal semantics, so the embedding refuses the
whole path with an error — no theorem below asserts anything about it. -/
def applyArrMod (m : JSON) (property : String) (mod : JSON) :
    Except String JSON :=
  match mod with
  | .null => .error "TypeError: cannot read properties of null"
  | .undef => .error "TypeError: cannot read properties of undefined"
  | _ =>
    if !jsTruthy (jget m property) && !isInitMode (jget mod "mode") then
      pure m
    else
      let m := if !jsTruthy (jget m property)
               then jset m property (.arr []) else m
      let mode := jget mod "mode"
      if jsStrictEq mode (.str "removeArr") then
        match jget m property with
        | .arr elems =>
          let names := jget mod "names"
          let keep := fun item =>
            match names with
            | .arr nl => !(nl.any (fun x => jsStrictEq x (itemName item)))
            | _ => !jsStrictEq (itemName item) names
          pure (jset m property (.arr (elems.filter keep)))
        | _ => pure m
      else if jsStrictEq mode (.str "appendArr") then
        match jget m property with
        | .arr elems =>
          let add := match jget mod "items" with
            | .arr il => il
            | x => [x]
          pure (jset m property (.arr (elems ++ add)))
        | _ => pure m
      else if jsStrictEq mode (.str "appendIfNotExistsArr") then
        match jget m property with
        | .arr elems =>
          let add := match jget mod "items" with
            | .arr il => il
            | x => [x]
          let elems := add.foldl (fun acc item =>
            if acc.any (fun ex => jsStrictEq (itemName ex) (itemName item))
            then acc else acc ++ [item]) elems
          pure (jset m property (.arr elems))
        | _ => pure m
      else if jsStrictEq mode (.str "prependArr") then
        match jget m property with
        | .arr elems =>
          let add := match jget mod "items" with
            | .arr il => il
            | x => [x]
          pure (jset m property (.arr (add ++ elems)))
        | _ => pure m
      else if jsStrictEq mode (.str "renameArr") then
        match jget m property with
        | .arr elems =>
          if elems.isEmpty then pure m
          else
            match jget mod "renames" with
            | .null => .error "TypeError: cannot read properties of null"
            | .undef => .error "TypeError: cannot read properties of undefined"
            | renames =>
              let target := jget renames "rename"
              match elems.findIdx? (fun item =>
                  jsTruthy item && isObjLike item
                    && jsStrictEq (jget item "name") target) with
              | some i =>
                let item := elems.getD i .undef
                if jsTruthy (jget item "name") then
                  pure (jset m property
                    (.arr (elems.set i (jset item "name" (jget renames "with")))))
                else pure m
              | none => pure m
        | _ => pure m
      else if jsStrictEq mode (.str "replaceTxt") then
        match jget m property with
        | .arr elems =>
          let pat := jsToString (jget mod "replace")
          let rep := jsToString (jget mod "with")
          if plainReplaceTxt pat.toList rep.toList then
            pure (jset m property (.arr (elems.map (replaceDeep pat rep))))
          else .error "SyntaxError or regex semantics: replaceTxt pair not modelled"
        | _ => pure m
      else pure m

/-- The `findIndex` of the single-object `replaceArr` form; its callback
reads `item.name` unguarded, so a `null`/`undefined` entry reached before a
match throws. -/
def findReplaceIdx (target : JSON) : List JSON → Nat → Except String (Option Nat)
  | [], _ => pure none
  | item :: rest, i =>
    match item with
    | .null => .error "TypeError: cannot read properties of null"
    | .undef => .error "TypeError: cannot read properties of undefined"
    | _ =>
      if jsStrictEq (jget item "name") target || jsStrictEq item target
      then pure (some i)
      else findReplaceIdx target rest (i + 1)

/-- Nested-property assignment: `setProp` navigates a dot-separated path,
creating `{}` at falsy intermediates, and writes the value at the end.  A
truthy primitive on the path makes some write hit a primitive receiver,
which throws in strict mode. -/
def setPath (target : JSON) (props : List String) (value : JSON) :
    Except String JSON :=
  match props with
  | [] => pure target
  | [last] => jsetW target last value
  | p :: rest =>
    let cur := jget target p
    if jsTruthy cur then do
      let sub ← setPath cur rest value
      jsetW target p sub
    else do
      let sub ← setPath (.obj []) rest value
      jsetW target p sub

/-- A non-array `_mod` entry: the single-object `replaceArr` and `setProp`
forms. -/
def applyNonArrMod (m : JSON) (property : String) (modifications : JSON) :
    Except String JSON :=
  match modifications with
  | .null => .error "TypeError: cannot read properties of null"
  | .undef => .error "TypeError: cannot read properties of undefined"
  | _ =>
    if jsStrictEq (jget modifications "mode") (.str "replaceArr") then
      match jget m property with
      | .arr elems => do
        match ← findReplaceIdx (jget modifications "replace") elems 0 with
        | some i =>
          pure (jset m property (.arr (elems.set i (jget modifications "items"))))
        | none => pure m
      | _ => pure m
    else if jsStrictEq (jget modifications "mode") (.str "setProp") then
      match jget modifications "prop" with
      | .str p => setPath m (p.splitOn ".") (jget modifications "value")
      | .null => .error "TypeError: cannot read properties of null"
      | .undef => .error "TypeError: cannot read properties of undefined"
      | _ => .error "TypeError: split is not a function"
    else pure m

/-- `monster.senses.includes(s)` followed by `monster.senses.push(s)`: fine
on an array, a substring test (and a throwing push) on a string, an
immediate `TypeError` on any other truthy receiver. -/
def addSenseStr (m : JSON) (s : String) : Except String JSON :=
  match jget m "senses" with
  | .arr l =>
    if l.any (fun x => jsStrictEq x (.str s)) then pure m
    else pure (jset m "senses" (.arr (l ++ [.str s])))
  | .str t =>
    if containsSub t.toList s.toList then pure m
    else .error "TypeError: monster.senses.push is not a function"
  | _ => .error "TypeError: monster.senses.includes is not a function"

/-- The string written for a skill bonus: `value > 0 ? '+'+value :
''+value` (numeric values; numeric-string coercion in the comparison is not
modelled). -/
def skillVal (v : JSON) : JSON :=
  .str (if (match v with | .num n => decide (0 < n) | _ => false)
        then "+" ++ jsToString v else jsToString v)

/-- `sizeOrder`, the size code table `{T:0, S:1, M:2, L:3, H:4, G:5}`. -/
def sizeOrd (v : JSON) : Option Int :=
  match v with
  | .str "T" => some 0
  | .str "S" => some 1
  | .str "M" => some 2
  | .str "L" => some 3
  | .str "H" => some 4
  | .str "G" => some 5
  | _ => none

/-- One root-level (`"_"`) modification: `addSenses`, `addSkills` or
`maxSize`. -/
def applyOneRootMod (m : JSON) (mod : JSON) : Except String JSON :=
  match mod with
  | .null => .error "TypeError: cannot read properties of null"
  | .undef => .error "TypeError: cannot read properties of undefined"
  | _ =>
    let mode := jget mod "mode"
    if jsStrictEq mode (.str "addSenses") then
      let m := if !jsTruthy (jget m "senses")
               then jset m "senses" (.arr []) else m
      let toAdd := match jget mod "senses" with
        | .arr l => l
        | x => [x]
      toAdd.foldlM (fun m sense =>
        match sense with
        | .str s => addSenseStr m s
        | _ =>
          if jsTruthy sense && isObjLike sense && jsTruthy (jget sense "type")
          then addSenseStr m
            (jsToString (jget sense "type") ++ " "
              ++ jsToString (jget sense "range") ++ " ft.")
          else pure m) m
    else if jsStrictEq mode (.str "addSkills") then
      let m := if !jsTruthy (jget m "skill")
               then jset m "skill" (.obj []) else m
      match jget mod "skills" with
      | .null => .error "TypeError: cannot convert null to object"
      | .undef => .error "TypeError: cannot convert undefined to object"
      | skills =>
        (entsOf skills).foldlM (fun m kv =>
          let cur := jget m "skill"
          if jsTruthy (jget cur kv.1) then pure m
          else
            match cur with
            | .obj _ => pure (jset m "skill" (jset cur kv.1 (skillVal kv.2)))
            | .arr _ => pure m
            | _ => .error "TypeError: cannot create property on a primitive") m
    else if jsStrictEq mode (.str "maxSize") then
      let maxSizeValue : Int :=
        match sizeOrd (jget mod "max") with
        | some v => if v = 0 then 5 else v
        | none => 5
      match jget m "size" with
      | .arr sizes =>
        let kept := sizes.filter (fun sz => ((sizeOrd sz).getD 0) ≤ maxSizeValue)
        if kept.isEmpty then pure (jset m "size" (.arr [jget mod "max"]))
        else pure (jset m "size" (.arr kept))
      | .str s =>
        if ((sizeOrd (.str s)).getD 0) > maxSizeValue
        then pure (jset m "size" (jget mod "max"))
        else pure m
      | _ => pure m
    else pure m

/-- `applyRootModifications`: ignore a non-array spec, otherwise run the
root modifications in order. -/
def applyRootModifications (m : JSON) (mods : JSON) : Except String JSON :=
  match mods with
  | .arr l => l.foldlM applyOneRootMod m
  | _ => pure m

/-- `applyModifications`: for each property of the `_mod` object, dispatch
to root modifications (key `"_"`), a list of array modifications, or a
single-object modification. -/
def applyModifications (monster mods : JSON) : Except String JSON :=
  (entsOf mods).foldlM (fun m kv =>
    if kv.1 = "_" then applyRootModifications m kv.2
    else match kv.2 with
      | .arr modList => modList.foldlM (fun m mod => applyArrMod m kv.1 mod) m
      | other => applyNonArrMod m kv.1 other) monster

/-- `null` or `undefined`. -/
def isNullish : JSON → Bool
  | .null => true
  | .undef => true
  | _ => false

/-- Did the computation finish without a JS exception? -/
def exOk : Except String JSON → Bool
  | .ok _ => true
  | .error _ => false

/-- A single array-operation entry that is itself present (not `null`/
`undefined`), carries a usable `renames` object when it is a `renameArr`,
and carries a plain pattern/replacement pair (no regex metacharacter, no
`$`-substitution) when it is a `replaceTxt`. -/
def wfArrMod (mod : JSON) : Bool :=
  !(isNullish mod) &&
  ((!(jsStrictEq (jget mod "mode") (.str "renameArr"))) ||
   !(isNullish (jget mod "renames"))) &&
  ((!(jsStrictEq (jget mod "mode") (.str "replaceTxt"))) ||
   plainReplaceTxt (jsToString (jget mod "replace")).toList
     (jsToString (jget mod "with")).toList)

/-- A `_mod` specification made only of array-operation lists: an object
whose every property is a non-root (`"_"`-free) key mapped to an array of
well-formed array operations. -/
def wfArrayOnlyMods (mods : JSON) : Bool :=
  match mods with
  | .obj fs => fs.all (fun kv =>
      (kv.1 ≠ "_" : Bool) && (match kv.2 with
        | .arr l => l.all wfArrMod
        | _ => false))
  | _ => false

/-- If the computation finishes, its result is still a plain object. -/
def exPres : Except String JSON → Bool
  | .ok r => isObj r
  | .error _ => true

/-- A variant spec usable for selection: an object with duplicate-free
keys carrying a `name` field. -/
def wfVariantSpec (s : JSON) : Bool :=
  match s with
  | .obj sf => ((jKeys sf).Nodup : Bool) && (jLookup sf "name").isSome
  | _ => false

/-! ### Template resolution engine -/

/-- Keys skipped by the copy merge: metadata keys (leading underscore)
other than `_copy` and `_versions`, which pass through. -/
def skipMergeKey (key : String) : Bool :=
  (match key.toList with
    | '_' :: _ => true
    | _ => false) && key ≠ "_copy" && key ≠ "_versions"

/-- How one override value combines with the current value during the copy
merge: two arrays concatenate (base then override), two object-likes
shallow-merge with the override winning (`{...cur, ...value}`), anything
else is replaced by the override value. -/
def combineVals (cur value : JSON) : JSON :=
  match value, cur with
  | .arr vs, .arr cs => .arr (cs ++ vs)
  | _, _ =>
    if isObjLike value && isObjLike cur
    then .obj (spreadEnts (entsOf cur) (entsOf value))
    else value

/-- One step of the copy-merge fold: skip a metadata key, otherwise
write the combined value. -/
def mergeStep (result : JSON) (kv : String × JSON) : JSON :=
  if skipMergeKey kv.1 then result
  else jset result kv.1 (combineVals (jget result kv.1) kv.2)

/-- `mergeMonsterData`: deep-copy the base, then fold the override's
entries over it, skipping metadata keys and combining per
`combineVals`. -/
def mergeMonsterData (base override : JSON) : JSON :=
  if !jsTruthy base then override
  else if !jsTruthy override then base
  else (entsOf override).foldl mergeStep (deepCopy base)

/-- `fetchTemplate` is a placeholder in the source: it logs and returns
`null`. -/
def fetchTemplate (_name _source : JSON) : JSON := .null

/-- `applyTemplate`: merge the template's `_root` fields with
`Object.assign`, then run its `_mod` block. -/
def applyTemplate (monster template : JSON) : Except String JSON :=
  if !(jsTruthy template && jsTruthy (jget template "apply")) then pure monster
  else
    let app := jget template "apply"
    let result :=
      if jsTruthy (jget app "_root")
      then (entsOf (jget app "_root")).foldl (fun t kv => jset t kv.1 kv.2) monster
      else monster
    if jsTruthy (jget app "_mod") then applyModifications result (jget app "_mod")
    else pure result

/-- `processMonsterCopy`: resolve a `_copy` reference by fetching the base
record, applying the listed templates (all of which the stubbed
`fetchTemplate` fails to find) and merging the override over the result.
Non-array truthy `_templates` values take the simple branch; with
`fetchTemplate` constantly `null` both branches merge base and override
identically. -/
def processMonsterCopy (monster : JSON) (fetchMonsterFn : JSON → JSON → JSON) :
    Except String JSON :=
  if !jsTruthy (jget monster "_copy") then pure monster
  else
    let result := monster
    let copyRef := jget monster "_copy"
    let baseMonster := fetchMonsterFn (jget copyRef "name") (jget copyRef "source")
    if !jsTruthy baseMonster then pure result
    else
      match jget copyRef "_templates" with
      | .arr templates =>
        if templates.isEmpty then pure (mergeMonsterData baseMonster result)
        else do
          let processed ← templates.foldlM (fun acc t =>
            let templateData := fetchTemplate (jget t "name") (jget t "source")
            if jsTruthy templateData then applyTemplate acc templateData
            else pure acc) baseMonster
          pure (mergeMonsterData processed result)
      | _ => pure (mergeMonsterData baseMonster result)

/-- Comparison of one field up to array-as-set semantics: two arrays are
equivalent when they hold the same members (order and multiplicity
ignored); every other pair must be equal.  This is the comparison the
idempotence claim specifies for copy resolution. -/
def fieldEquiv : JSON → JSON → Prop
  | .arr xs, .arr ys => ∀ v, v ∈ xs ↔ v ∈ ys
  | a, b => a = b

/-- Record equality with array-valued fields compared as sets: every
property reads equivalently. -/
def recordEquivSets (r₂ r₁ : JSON) : Prop :=
  ∀ k, fieldEquiv (jget r₂ k) (jget r₁ k)

/-- The per-variant body of `processMonsterVariants`: deep-copy the base,
run the spec's `_mod` block, overwrite the spec's remaining direct fields,
and tag the result as a variant. -/
def resolveVariantSpec (baseMonster variant : JSON) : Except String JSON := do
  let variantMonster := deepCopy baseMonster
  let variantMonster ←
    if jsTruthy (jget variant "_mod")
    then applyModifications variantMonster (jget variant "_mod")
    else pure variantMonster
  let variantMonster := (entsOf variant).foldl
    (fun vm kv => if kv.1 = "_mod" then vm else jset vm kv.1 kv.2) variantMonster
  pure (jset variantMonster "_isVariant" (.bool true))

/-- `processMonsterVariants`: a record without a `_versions` array expands
to itself; otherwise the base record (itself, not a copy) is included
unless it is marked `_isVariantTemplate`, followed by one resolved record
per variant spec in order. -/
def processMonsterVariants (baseMonster : JSON) : Except String (List JSON) :=
  match jget baseMonster "_versions" with
  | .arr versions => do
    let variants : List JSON :=
      if jsTruthy (jget baseMonster "_isVariantTemplate") then []
      else [baseMonster]
    let vs ← versions.mapM (resolveVariantSpec baseMonster)
    pure (variants ++ vs)
  | _ => pure [baseMonster]

/-! ### Heap-passing embedding of variant expansion

The one claim about object identity (whether returned members alias the
base record or are fresh copies) needs mutation to be observable, so
variant expansion is also embedded against an explicit heap of records:
each cell is one top-level record object, `JSON.parse(JSON.stringify(x))`
allocates a fresh cell, and pushing `baseMonster` itself pushes its
reference.

The granularity is deliberate and limits what can be stated: a cell holds
a whole record as a value, so identity is tracked only between top-level
records.  Aliasing that the source creates *inside* a variant — the
direct-field overwrite `variantMonster[key] = value` installs the spec
object (which lives inside `baseMonster._versions`) by reference, and
`appendArr` pushes `mod.items` entries by reference — is below this
granularity.  No theorem below asserts independence of nested values;
the theorems speak only of which top-level cells are written and which
top-level references are returned. -/

/-- The options / context object threaded through the display functions.
`variant` is the caller's variant selection, `processVariants` the internal
flag that lets a resolved variant through the renderer's guard. -/
structure RenderOptions where
  variant : Option String := none
  processVariants : Bool := false
deriving Repr

/-- `options.variant` truthiness (`undefined` and `""` are falsy). -/
def variantRequested (options : RenderOptions) : Bool :=
  match options.variant with
  | some s => s ≠ ""
  | none => false

/-- The structured documents the display functions produce: a rendered
stat block, the has-variants warning, the variant-selection list (base link
included iff the record is not template-only) or an error message. -/
inductive RenderDoc where
  | statBlock (creature : JSON)
  | variantWarning (variantNames : List JSON)
  | variantSelection (includesBase : Bool) (creature : JSON)
      (variantNames : List JSON)
  | errorMsg (text : String)
deriving Repr

/-- The names listed by the renderer's variants warning
(`creature._versions.map(v => v.name)`; calling `.map` on a truthy
non-array would throw in JS and is not reached by any theorem below). -/
def versionNames (creature : JSON) : List JSON :=
  match jget creature "_versions" with
  | .arr vs => vs.map (fun v => jget v "name")
  | _ => []

/-- `renderCreatureStatBlock`: a record still carrying truthy `_versions`
short-circuits to the variants warning unless `processVariants` is set;
otherwise the stat block is rendered. -/
def renderCreatureStatBlock (creature : JSON) (context : RenderOptions) :
    RenderDoc :=
  if jsTruthy (jget creature "_versions") && !context.processVariants then
    .variantWarning (versionNames creature)
  else
    .statBlock creature

/-- `renderVariantSelection`: without a non-empty `_versions` array, fall
back to the stat block (with `processVariants` set); otherwise list the
base (when the record is not template-only) and every variant name. -/
def renderVariantSelection (creature : JSON) : RenderDoc :=
  match jget creature "_versions" with
  | .arr vs =>
    if vs.isEmpty then renderCreatureStatBlock creature { processVariants := true }
    else
      .variantSelection (!jsTruthy (jget creature "_isVariantTemplate"))
        creature (vs.map (fun v => jget v "name"))
  | _ => renderCreatureStatBlock creature { processVariants := true }

/-- `displayCreatureDetails` (the renderer module's entry point): find the
record by id, resolve a `_copy` if present, otherwise dispatch on
`_versions` and the requested variant. -/
def displayCreatureDetails (creatures : List JSON) (creatureId : JSON)
    (fetchMonster : JSON → JSON → JSON) (options : RenderOptions) :
    Except String RenderDoc :=
  match creatures.find? (fun c => jsStrictEq (jget c "id") creatureId) with
  | none => pure (.errorMsg "creature not found")
  | some creature =>
    if jsTruthy (jget creature "_copy") then do
      let processedCreature ← processMonsterCopy creature fetchMonster
      pure (renderCreatureStatBlock processedCreature options)
    else
      match jget creature "_versions" with
      | .arr versions =>
        if versions.isEmpty then pure (renderCreatureStatBlock creature options)
        else if variantRequested options then
          let vname := (options.variant).getD ""
          if versions.any (fun v => jsStrictEq (jget v "name") (.str vname)) then do
            let variantCreatures ← processMonsterVariants creature
            match variantCreatures.find?
                (fun v => jsStrictEq (jget v "name") (.str vname)) with
            | some processed => pure (renderCreatureStatBlock processed options)
            | none => pure (.errorMsg "variant not found")
          else pure (.errorMsg "variant not found")
        else pure (renderVariantSelection creature)
      | _ => pure (renderCreatureStatBlock creature options)

/-! ### Field normalizer: armor class -/

/-- `getArmorClass` of the data manager: falsy `ac` (including `0`) yields
the default `10`; a number is returned as is; an array yields its first
element if a number, or that element's truthy `ac` field; a remaining
object-like `ac` yields its truthy `ac` field; otherwise `10`. -/
def getArmorClass (monster : JSON) : JSON :=
  let ac := jget monster "ac"
  if !jsTruthy ac then .num 10
  else
    match ac with
    | .num n => .num n
    | _ =>
      let arrResult : Option JSON :=
        match ac with
        | .arr elems =>
          let firstAc := elems.getD 0 .undef
          match firstAc with
          | .num n => some (.num n)
          | _ =>
            if isObjLike firstAc && jsTruthy (jget firstAc "ac")
            then some (jget firstAc "ac") else none
        | _ => none
      match arrResult with
      | some v => v
      | none =>
        if isObjLike ac && jsTruthy (jget ac "ac") then jget ac "ac"
        else .num 10

/-- `extract5eToolsAC` of the data manager: like `getArmorClass` but using
`'ac' in x` membership tests instead of truthiness for the object
shapes. -/
def extract5eToolsAC (monster : JSON) : JSON :=
  let ac := jget monster "ac"
  if !jsTruthy ac then .num 10
  else
    match ac with
    | .num n => .num n
    | _ =>
      let arrResult : Option JSON :=
        match ac with
        | .arr elems =>
          if elems.isEmpty then some (.num 10)
          else
            let firstAC := elems.getD 0 .undef
            match firstAC with
            | .num n => some (.num n)
            | _ =>
              if isObjLike firstAC && hasKey firstAC "ac"
              then some (jget firstAC "ac") else none
        | _ => none
      match arrResult with
      | some v => v
      | none =>
        if isObjLike ac && hasKey ac "ac" then jget ac "ac"
        else .num 10

/-! ### Concrete inputs used by the claim theorems below -/

/-- The record `{size: "M"}`. -/
def sizeMRecord : JSON := .obj [("size", .str "M")]

/-- The modification spec `{_: [{mode: "maxSize", max: "T"}]}`. -/
def maxSizeTinySpec : JSON :=
  .obj [("_", .arr [.obj [("mode", .str "maxSize"), ("max", .str "T")]])]

/-- The creature list for the variant-selection scenario: one record with
two variant specs. -/
def bestialSpirit : JSON :=
  .obj [("id", .str "c1"), ("name", .str "Bestial Spirit"),
    ("_versions", .arr [.obj [("name", .str "Land")],
                        .obj [("name", .str "Air")]])]

/-- The record `{senses: "darkvision 60 ft."}` — a legal record shape, the
spec's field-normalizer table accepts a bare string for `senses`. -/
def stringSensesRecord : JSON := .obj [("senses", .str "darkvision 60 ft.")]

/-- The well-formed modification spec
`{_: [{mode: "addSenses", senses: ["blindsight 10 ft."]}]}`. -/
def addSensesSpec : JSON :=
  .obj [("_", .arr [.obj [("mode", .str "addSenses"),
    ("senses", .arr [.str "blindsight 10 ft."])]])]

/-- The record `{ac: 0}`. -/
def acZeroRecord : JSON := .obj [("ac", .num 0)]

/-- The string `{{@damage @atk mw}}`. -/
def damageNestString : String := "\x7b\x7b@damage @atk mw\x7d\x7d"

def spiritSpecs : List JSON :=
  [.obj [("name", .str "Air")], .obj [("name", .str "Land")],
    .obj [("name", .str "Water")]]

def spiritFields : List (String × JSON) :=
  [("name", .str "Bestial Spirit"), ("_isVariantTemplate", .bool true),
    ("_versions", .arr spiritSpecs)]

def spiritVariantOut (nm : String) : JSON :=
  .obj [("name", .str nm), ("_isVariantTemplate", .bool true),
    ("_versions", .arr spiritSpecs), ("_isVariant", .bool true)]

/-- A record with an empty `_versions` list. -/
def emptyVersionsRecord : JSON :=
  .obj [("id", .str "c1"), ("name", .str "X"), ("_versions", .arr [])]

/-- A record with both a `_copy` reference and a non-empty `_versions`
list. -/
def copyVersionsRecord : JSON :=
  .obj [("id", .str "c2"), ("name", .str "X"),
    ("_copy", .obj [("name", .str "B"), ("source", .str "S")]),
    ("_versions", .arr [.obj [("name", .str "A")]])]

/-! ## Theorems -/

/-! ### Association-list lemmas -/

/-- Keys of the empty field list. -/
theorem jKeys_nil : jKeys [] = [] := rfl

/-- Keys of a cons. -/
theorem jKeys_cons (kv : String × JSON) (fs : List (String × JSON)) :
    jKeys (kv :: fs) = kv.1 :: jKeys fs := rfl

/-- A lookup misses exactly when the key is absent. -/
theorem jLookup_eq_none {fs : List (String × JSON)} {k : String} :
    jLookup fs k = none ↔ k ∉ jKeys fs := by
  induction fs with
  | nil => simp [jLookup, jKeys]
  | cons kv rest ih =>
    obtain ⟨k', v⟩ := kv
    rw [jKeys_cons]
    by_cases h : k' = k
    · subst h
      simp [jLookup]
    · simp only [jLookup, if_neg h, ih, List.mem_cons]
      constructor
      · intro hnk hor
        rcases hor with hor | hor
        · exact h hor.symm
        · exact hnk hor
      · intro hcon hm
        exact hcon (Or.inr hm)

/-- A successful lookup returns a pair of the list. -/
theorem jLookup_mem {fs : List (String × JSON)} {k : String} {v : JSON}
    (h : jLookup fs k = some v) : (k, v) ∈ fs := by
  induction fs with
  | nil => exact absurd h (by simp [jLookup])
  | cons kv rest ih =>
    obtain ⟨k', v'⟩ := kv
    by_cases hk : k' = k
    · subst hk
      have hv : v' = v := by simpa [jLookup] using h
      subst hv
      exact List.mem_cons_self _ _
    · simp only [jLookup, if_neg hk] at h
      exact List.mem_cons_of_mem _ (ih h)

/-- Assignment makes the key read back the written value. -/
theorem jLookup_setKey_self (fs : List (String × JSON)) (k : String) (v : JSON) :
    jLookup (setKey fs k v) k = some v := by
  induction fs with
  | nil => simp [setKey, jLookup]
  | cons kv rest ih =>
    obtain ⟨k', v'⟩ := kv
    by_cases h : k' = k
    · subst h
      simp [setKey, jLookup]
    · simp [setKey, jLookup, h, ih]

/-- Assignment leaves other keys alone. -/
theorem jLookup_setKey_other (fs : List (String × JSON)) {k k' : String}
    (v : JSON) (h : k' ≠ k) :
    jLookup (setKey fs k v) k' = jLookup fs k' := by
  induction fs with
  | nil => simp [setKey, jLookup, Ne.symm h]
  | cons kv rest ih =>
    obtain ⟨k₀, v₀⟩ := kv
    by_cases h0 : k₀ = k
    · subst h0
      simp [setKey, jLookup, Ne.symm h]
    · simp [setKey, jLookup, h0, ih]

/-- Assignment updates in place or appends the new key. -/
theorem jKeys_setKey (fs : List (String × JSON)) (k : String) (v : JSON) :
    jKeys (setKey fs k v)
      = if k ∈ jKeys fs then jKeys fs else jKeys fs ++ [k] := by
  induction fs with
  | nil => simp [setKey, jKeys]
  | cons kv rest ih =>
    obtain ⟨k₀, v₀⟩ := kv
    by_cases h0 : k₀ = k
    · subst h0
      simp [setKey, jKeys_cons]
    · simp only [setKey, if_neg h0, jKeys_cons, ih]
      by_cases hm : k ∈ jKeys rest
      · simp [hm, Ne.symm h0]
      · simp [hm, Ne.symm h0]

/-- Writing back the value a key already holds is the identity. -/
theorem setKey_self {fs : List (String × JSON)} {k : String} {v : JSON}
    (h : jLookup fs k = some v) : setKey fs k v = fs := by
  induction fs with
  | nil => exact absurd h (by simp [jLookup])
  | cons kv rest ih =>
    obtain ⟨k₀, v₀⟩ := kv
    by_cases h0 : k₀ = k
    · subst h0
      have hv : v₀ = v := by simpa [jLookup] using h
      subst hv
      simp [setKey]
    · simp only [jLookup, if_neg h0] at h
      simp [setKey, h0, ih h]

/-- Assignment preserves distinctness of keys. -/
theorem nodup_jKeys_setKey {fs : List (String × JSON)} (k : String) (v : JSON)
    (h : (jKeys fs).Nodup) : (jKeys (setKey fs k v)).Nodup := by
  rw [jKeys_setKey]
  by_cases hm : k ∈ jKeys fs
  · simpa [hm] using h
  · rw [if_neg hm, List.nodup_append]
    refine ⟨h, List.nodup_singleton k, ?_⟩
    intro x hx hxk
    rw [List.mem_singleton] at hxk
    subst hxk
    exact hm hx

/-- In a duplicate-free list, a member pair is what lookup finds. -/
theorem jLookup_of_mem_nodup {fs : List (String × JSON)} {k : String} {v : JSON}
    (hnd : (jKeys fs).Nodup) (h : (k, v) ∈ fs) : jLookup fs k = some v := by
  induction fs with
  | nil => exact absurd h (List.not_mem_nil _)
  | cons kv rest ih =>
    obtain ⟨k₀, v₀⟩ := kv
    rw [jKeys_cons] at hnd
    obtain ⟨hk0, hnd'⟩ := List.nodup_cons.mp hnd
    rcases List.mem_cons.mp h with he | hm
    · injection he with h1 h2
      subst h1
      subst h2
      simp [jLookup]
    · have hk : k₀ ≠ k := by
        intro he2
        subst he2
        have h3 := List.mem_map_of_mem Prod.fst hm
        exact hk0 h3
      simp only [jLookup, if_neg hk]
      exact ih hnd' hm

/-! ### Spread lemmas -/

/-- Spreading nothing is the identity. -/
theorem spreadEnts_nil (a : List (String × JSON)) : spreadEnts a [] = a := rfl

/-- Unfolding one spread step. -/
theorem spreadEnts_cons (a : List (String × JSON)) (kv : String × JSON)
    (b : List (String × JSON)) :
    spreadEnts a (kv :: b) = spreadEnts (setKey a kv.1 kv.2) b := rfl

/-- A key absent from the right operand falls through to the left. -/
theorem jLookup_spreadEnts_left {b : List (String × JSON)} {k : String}
    (a : List (String × JSON)) (h : jLookup b k = none) :
    jLookup (spreadEnts a b) k = jLookup a k := by
  induction b generalizing a with
  | nil => rfl
  | cons kv rest ih =>
    obtain ⟨k₀, v₀⟩ := kv
    have hk : k₀ ≠ k := by
      intro he
      simp [jLookup, he] at h
    have hrest : jLookup rest k = none := by
      simpa [jLookup, hk] using h
    rw [spreadEnts_cons]
    rw [ih (setKey a k₀ v₀) hrest]
    exact jLookup_setKey_other a v₀ (fun he => hk he.symm)

/-- A key present in the (duplicate-free) right operand reads back its
value after the spread. -/
theorem jLookup_spreadEnts_right {b : List (String × JSON)} {k : String}
    {v : JSON} (a : List (String × JSON)) (hnd : (jKeys b).Nodup)
    (h : jLookup b k = some v) :
    jLookup (spreadEnts a b) k = some v := by
  induction b generalizing a with
  | nil => exact absurd h (by simp [jLookup])
  | cons kv rest ih =>
    obtain ⟨k₀, v₀⟩ := kv
    rw [jKeys_cons] at hnd
    obtain ⟨hk0, hnd'⟩ := List.nodup_cons.mp hnd
    rw [spreadEnts_cons]
    by_cases hk : k₀ = k
    · subst hk
      have hv : v₀ = v := by simpa [jLookup] using h
      subst hv
      have hnone : jLookup rest k₀ = none := jLookup_eq_none.mpr hk0
      rw [jLookup_spreadEnts_left _ hnone]
      exact jLookup_setKey_self a k₀ v₀
    · have hrest : jLookup rest k = some v := by
        simpa [jLookup, hk] using h
      exact ih (setKey a k₀ v₀) hnd' hrest

/-- The keys of a spread: the left keys followed by the genuinely new
right keys. -/
theorem jKeys_spreadEnts (a b : List (String × JSON)) :
    jKeys (spreadEnts a b) = jKeys a ++ freshKeysStr (jKeys a) (jKeys b) := by
  induction b generalizing a with
  | nil => simp [spreadEnts_nil, freshKeysStr, jKeys_nil]
  | cons kv rest ih =>
    obtain ⟨k₀, v₀⟩ := kv
    rw [spreadEnts_cons, ih]
    rw [jKeys_cons, freshKeysStr]
    rw [jKeys_setKey]
    by_cases hm : k₀ ∈ jKeys a
    · rw [if_pos hm, if_pos hm]
    · rw [if_neg hm, if_neg hm, List.append_assoc]
      rfl

/-- Fresh keys avoid the prior key list. -/
theorem freshKeysStr_not_mem {ks l : List String} {x : String}
    (h : x ∈ freshKeysStr ks l) : x ∉ ks := by
  induction l generalizing ks with
  | nil => simp [freshKeysStr] at h
  | cons k rest ih =>
    rw [freshKeysStr] at h
    by_cases hm : k ∈ ks
    · rw [if_pos hm] at h
      exact ih h
    · rw [if_neg hm] at h
      rcases List.mem_cons.mp h with he | hmem
      · subst he
        exact hm
      · intro hx
        exact ih hmem (List.mem_append.mpr (Or.inl hx))

/-- Fresh keys are distinct. -/
theorem freshKeysStr_nodup (ks l : List String) :
    (freshKeysStr ks l).Nodup := by
  induction l generalizing ks with
  | nil => simp [freshKeysStr]
  | cons k rest ih =>
    rw [freshKeysStr]
    by_cases hm : k ∈ ks
    · rw [if_pos hm]
      exact ih ks
    · rw [if_neg hm]
      refine List.nodup_cons.mpr ⟨?_, ih (ks ++ [k])⟩
      intro hmem
      exact freshKeysStr_not_mem hmem
        (List.mem_append.mpr (Or.inr (List.mem_singleton.mpr rfl)))

/-- Keys already present contribute no fresh keys. -/
theorem freshKeysStr_append_mem {ks l1 : List String} (l2 : List String)
    (h : ∀ x ∈ l1, x ∈ ks) :
    freshKeysStr ks (l1 ++ l2) = freshKeysStr ks l2 := by
  induction l1 with
  | nil => rfl
  | cons k rest ih =>
    rw [List.cons_append, freshKeysStr, if_pos (h k (List.mem_cons_self k rest))]
    exact ih (fun x hx => h x (List.mem_cons_of_mem _ hx))

/-- A disjoint, duplicate-free suffix is returned verbatim. -/
theorem freshKeysStr_disjoint {ks l : List String}
    (h1 : ∀ x ∈ l, x ∉ ks) (h2 : l.Nodup) :
    freshKeysStr ks l = l := by
  induction l generalizing ks with
  | nil => rfl
  | cons k rest ih =>
    rw [freshKeysStr, if_neg (h1 k (List.mem_cons_self k rest))]
    obtain ⟨hknr, hnd'⟩ := List.nodup_cons.mp h2
    congr 1
    refine ih (fun x hx => ?_) hnd'
    intro hm
    rcases List.mem_append.mp hm with hm | hm
    · exact h1 x (List.mem_cons_of_mem _ hx) hm
    · rw [List.mem_singleton] at hm
      subst hm
      exact hknr hx

/-- A spread over a duplicate-free left operand has duplicate-free keys. -/
theorem nodup_jKeys_spreadEnts {a : List (String × JSON)}
    (b : List (String × JSON)) (h : (jKeys a).Nodup) :
    (jKeys (spreadEnts a b)).Nodup := by
  rw [jKeys_spreadEnts, List.nodup_append]
  exact ⟨h, freshKeysStr_nodup _ _,
    fun x hx hmem => freshKeysStr_not_mem hmem hx⟩

/-- Extensionality for entry lists: equal duplicate-free key sequences and
equal lookups force equal lists. -/
theorem entries_ext {xs ys : List (String × JSON)}
    (hx : (jKeys xs).Nodup) (hy : (jKeys ys).Nodup)
    (hk : jKeys xs = jKeys ys) (hl : ∀ k, jLookup xs k = jLookup ys k) :
    xs = ys := by
  induction xs generalizing ys with
  | nil =>
    cases ys with
    | nil => rfl
    | cons kv rest =>
      rw [jKeys_nil, jKeys_cons] at hk
      exact List.noConfusion hk
  | cons kv rest ih =>
    obtain ⟨k₀, v₀⟩ := kv
    cases ys with
    | nil =>
      rw [jKeys_cons, jKeys_nil] at hk
      exact List.noConfusion hk
    | cons kv' rest' =>
      obtain ⟨k₁, v₁⟩ := kv'
      rw [jKeys_cons, jKeys_cons] at hk
      injection hk with hk1 htail
      subst hk1
      have hv : v₀ = v₁ := by
        have hh := hl k₀
        simpa [jLookup] using hh
      subst hv
      rw [jKeys_cons] at hx hy
      obtain ⟨hk0x, hx'⟩ := List.nodup_cons.mp hx
      obtain ⟨hk0y, hy'⟩ := List.nodup_cons.mp hy
      have hl' : ∀ k, jLookup rest k = jLookup rest' k := by
        intro k
        by_cases hkq : k₀ = k
        · subst hkq
          rw [jLookup_eq_none.mpr hk0x, jLookup_eq_none.mpr hk0y]
        · have hh := hl k
          simpa [jLookup, hkq] using hh
      rw [ih hx' hy' htail hl']

/-- Spreading the same left operand twice accumulates nothing:
`{...a, ...{...a, ...c}} = {...a, ...c}` when `a` has duplicate-free
keys. -/
theorem spreadEnts_absorb {a : List (String × JSON)}
    (c : List (String × JSON)) (h : (jKeys a).Nodup) :
    spreadEnts a (spreadEnts a c) = spreadEnts a c := by
  have hnd : (jKeys (spreadEnts a c)).Nodup := nodup_jKeys_spreadEnts c h
  refine entries_ext (nodup_jKeys_spreadEnts _ h) hnd ?_ ?_
  · rw [jKeys_spreadEnts a (spreadEnts a c), jKeys_spreadEnts a c]
    rw [freshKeysStr_append_mem _ (fun x hx => hx)]
    rw [freshKeysStr_disjoint
      (fun x hx => freshKeysStr_not_mem hx) (freshKeysStr_nodup _ _)]
  · intro k
    cases hcase : jLookup (spreadEnts a c) k with
    | some v => exact jLookup_spreadEnts_right _ hnd hcase
    | none =>
      rw [jLookup_spreadEnts_left _ hcase]
      rw [jLookup_eq_none]
      intro hmem
      refine (jLookup_eq_none.mp hcase) ?_
      rw [jKeys_spreadEnts]
      exact List.mem_append.mpr (Or.inl hmem)

/-- Spreading a duplicate-free entry list over itself is the identity. -/
theorem spreadEnts_self {fs : List (String × JSON)}
    (h : (jKeys fs).Nodup) : spreadEnts fs fs = fs := by
  have habs := spreadEnts_absorb (a := fs) [] h
  simpa [spreadEnts_nil] using habs

/-! ### Decimal index keys are distinct -/

/-- Digit characters decode back to their digit. -/
theorem digitChar_sub_zero {m : Nat} (h : m < 10) :
    (Nat.digitChar m).toNat - '0'.toNat = m := by
  interval_cases m <;> decide

/-- Appending a digit multiplies the decoded value by ten. -/
theorem decDecode_append (l : List Char) (c : Char) :
    decDecode (l ++ [c]) = decDecode l * 10 + (c.toNat - '0'.toNat) := by
  simp [decDecode, List.foldl_append]

/-- Decoding inverts the fuel-driven rendering whenever the fuel is
enough (it always is for single digits). -/
theorem decDecode_natToDecA (fuel : Nat) :
    ∀ n, n ≤ fuel ∨ n < 10 → decDecode (natToDecA fuel n) = n := by
  induction fuel with
  | zero =>
    intro n hle
    have h10 : n < 10 := by omega
    simp only [natToDecA, decDecode, List.foldl]
    simpa using digitChar_sub_zero h10
  | succ fuel ih =>
    intro n hle
    by_cases h : n < 10
    · simp only [natToDecA, if_pos h, decDecode, List.foldl]
      simpa using digitChar_sub_zero h
    · have hd : n / 10 < n := Nat.div_lt_self (by omega) (by omega)
      simp only [natToDecA, if_neg h]
      rw [decDecode_append, ih (n / 10) (Or.inl (by omega))]
      rw [digitChar_sub_zero (Nat.mod_lt _ (by omega))]
      omega

/-- Decoding inverts the decimal rendering. -/
theorem decDecode_natToDecL (n : Nat) : decDecode (natToDecL n) = n :=
  decDecode_natToDecA n n (Or.inl le_rfl)

/-- The decimal rendering is injective. -/
theorem natToDecL_injective : Function.Injective natToDecL := by
  intro a b h
  have h2 := congrArg decDecode h
  simpa [decDecode_natToDecL] using h2

/-- The decimal string rendering is injective. -/
theorem natToDec_injective : Function.Injective natToDec := by
  intro a b h
  unfold natToDec at h
  injection h with h2
  exact natToDecL_injective h2

/-- The index keys of an array spread. -/
theorem jKeys_idxEnts (xs : List JSON) :
    jKeys (idxEnts xs) = (List.range xs.length).map natToDec := by
  rw [idxEnts]
  unfold jKeys
  rw [List.map_map]
  have hfe : (Prod.fst ∘ fun p : Nat × JSON => (natToDec p.1, p.2))
      = natToDec ∘ Prod.fst := rfl
  rw [hfe, ← List.map_map, List.enum_map_fst]

/-- Array index keys are distinct. -/
theorem nodup_jKeys_idxEnts (xs : List JSON) :
    (jKeys (idxEnts xs)).Nodup := by
  rw [jKeys_idxEnts]
  exact (List.nodup_range _).map natToDec_injective

/-! ### Well-formedness projections -/

/-- A well-formed object has duplicate-free keys. -/
theorem jwf_obj_nodup {fs : List (String × JSON)}
    (h : jwf (.obj fs) = true) : (jKeys fs).Nodup := by
  rw [jwf] at h
  have h' := (Bool.and_eq_true _ _).mp h
  exact of_decide_eq_true h'.1

/-- Every field value of a well-formed field list is well-formed. -/
theorem jwf_fields_val {fs : List (String × JSON)} {k : String} {v : JSON}
    (h : jwfFields fs = true) (hm : (k, v) ∈ fs) : jwf v = true := by
  induction fs with
  | nil => exact absurd hm (List.not_mem_nil _)
  | cons kv rest ih =>
    obtain ⟨k₀, v₀⟩ := kv
    rw [jwfFields] at h
    have h' := (Bool.and_eq_true _ _).mp h
    rcases List.mem_cons.mp hm with he | hm'
    · injection he with h1 h2
      subst h2
      exact h'.1
    · exact ih h'.2 hm'

/-- A field looked up in a well-formed object is well-formed. -/
theorem jwf_obj_val {fs : List (String × JSON)} {k : String} {v : JSON}
    (h : jwf (.obj fs) = true) (hl : jLookup fs k = some v) :
    jwf v = true := by
  rw [jwf] at h
  have h' := (Bool.and_eq_true _ _).mp h
  exact jwf_fields_val h'.2 (jLookup_mem hl)

/-- A well-formed value is never `undefined`. -/
theorem jwf_ne_undef {v : JSON} (h : jwf v = true) : v ≠ .undef := by
  intro he
  subst he
  simp [jwf] at h

/-- No field of a well-formed object holds `undefined`. -/
theorem jwf_valsOk {fs : List (String × JSON)} (h : jwf (.obj fs) = true) :
    ∀ kv ∈ fs, kv.2 ≠ JSON.undef := by
  intro kv hm
  obtain ⟨k, v⟩ := kv
  rw [jwf] at h
  have h' := (Bool.and_eq_true _ _).mp h
  exact jwf_ne_undef (jwf_fields_val h'.2 hm)

/-! ### Reading and writing records -/

/-- Reading a freshly written property of an object. -/
theorem jget_jset_self {m : JSON} (hobj : isObj m = true) (k : String)
    (v : JSON) : jget (jset m k v) k = v := by
  cases m <;> simp [isObj] at hobj
  case obj fs => simp [jset, jget, jLookup_setKey_self]

/-- Reading another property after a write. -/
theorem jget_jset_other (m : JSON) {k k' : String} (v : JSON)
    (h : k' ≠ k) : jget (jset m k v) k' = jget m k' := by
  cases m <;> try rfl
  case obj fs => simp [jset, jget, jLookup_setKey_other fs v h]

/-- Writes keep objects objects. -/
theorem isObj_jset {m : JSON} (hobj : isObj m = true) (k : String)
    (v : JSON) : isObj (jset m k v) = true := by
  cases m <;> simp [isObj] at hobj ⊢
  case obj fs => simp [jset, isObj]

/-- A pair of an updated field list is an old pair or the written one. -/
theorem mem_setKey {fs : List (String × JSON)} {k : String} {v : JSON}
    {kv : String × JSON} (h : kv ∈ setKey fs k v) :
    kv ∈ fs ∨ kv = (k, v) := by
  induction fs with
  | nil =>
    simp [setKey] at h
    exact Or.inr h
  | cons kv₀ rest ih =>
    obtain ⟨k₀, v₀⟩ := kv₀
    by_cases h0 : k₀ = k
    · subst h0
      simp only [setKey, if_pos rfl] at h
      rcases List.mem_cons.mp h with he | hm
      · exact Or.inr (by rw [he])
      · exact Or.inl (List.mem_cons_of_mem _ hm)
    · simp only [setKey, if_neg h0] at h
      rcases List.mem_cons.mp h with he | hm
      · exact Or.inl (he ▸ List.mem_cons_self _ _)
      · rcases ih hm with hm' | he'
        · exact Or.inl (List.mem_cons_of_mem _ hm')
        · exact Or.inr he'

/-! ### Copy-merge characterization -/

/-- The combined value is never `undefined` when the override value is
not. -/
theorem combineVals_ne_undef {cur value : JSON}
    (h : value ≠ JSON.undef) : combineVals cur value ≠ JSON.undef := by
  unfold combineVals
  cases value <;> cases cur <;> simp_all [isObjLike]

/-- What one property reads after the merge fold: an override entry at a
non-metadata key combines with the accumulator's value, everything else is
untouched. -/
theorem jget_foldl_mergeStep (mf : List (String × JSON)) (acc : JSON)
    (k : String) (hnd : (jKeys mf).Nodup) (hobj : isObj acc = true) :
    jget (mf.foldl mergeStep acc) k
      = match jLookup mf k with
        | some v => if skipMergeKey k then jget acc k
                    else combineVals (jget acc k) v
        | none => jget acc k := by
  induction mf generalizing acc with
  | nil => simp [jLookup]
  | cons kv rest ih =>
    obtain ⟨k₀, v₀⟩ := kv
    rw [jKeys_cons] at hnd
    obtain ⟨hk0, hnd'⟩ := List.nodup_cons.mp hnd
    rw [List.foldl_cons]
    have hstep : isObj (mergeStep acc (k₀, v₀)) = true := by
      unfold mergeStep
      by_cases hsk : skipMergeKey k₀ = true
      · simpa [hsk] using hobj
      · simp only [hsk]
        simp [isObj_jset hobj]
    rw [ih (mergeStep acc (k₀, v₀)) hnd' hstep]
    by_cases hk : k₀ = k
    · subst hk
      have hrest : jLookup rest k₀ = none := jLookup_eq_none.mpr hk0
      have hrhs : jLookup ((k₀, v₀) :: rest) k₀ = some v₀ := by simp [jLookup]
      rw [hrest, hrhs]
      dsimp only
      unfold mergeStep
      by_cases hsk : skipMergeKey k₀ = true
      · simp [hsk]
      · simp only [hsk, Bool.false_eq_true, if_false, if_neg hsk]
        rw [jget_jset_self hobj]
    · have hget : jget (mergeStep acc (k₀, v₀)) k = jget acc k := by
        unfold mergeStep
        by_cases hsk : skipMergeKey k₀ = true
        · simp [hsk]
        · simp only [hsk, Bool.false_eq_true, if_false]
          exact jget_jset_other acc _ (fun he => hk he.symm)
      rw [hget]
      simp only [jLookup, if_neg hk]

/-- The merge fold keeps the record an object, keeps its keys
duplicate-free and keeps `undefined` out of its fields. -/
theorem foldl_mergeStep_props (mf fs : List (String × JSON)) :
    ∃ rf, mf.foldl mergeStep (.obj fs) = .obj rf
      ∧ ((jKeys fs).Nodup → (jKeys rf).Nodup)
      ∧ ((∀ kv ∈ fs, kv.2 ≠ JSON.undef) → (∀ kv ∈ mf, kv.2 ≠ JSON.undef) →
          ∀ kv ∈ rf, kv.2 ≠ JSON.undef) := by
  induction mf generalizing fs with
  | nil => exact ⟨fs, rfl, fun h => h, fun h _ => h⟩
  | cons kv rest ih =>
    obtain ⟨k₀, v₀⟩ := kv
    rw [List.foldl_cons]
    by_cases hsk : skipMergeKey k₀ = true
    · have hms : mergeStep (.obj fs) (k₀, v₀) = .obj fs := by
        unfold mergeStep
        simp [hsk]
      rw [hms]
      obtain ⟨rf, heq, hnd, hvals⟩ := ih fs
      exact ⟨rf, heq, hnd, fun h1 h2 =>
        hvals h1 (fun kv hm => h2 kv (List.mem_cons_of_mem _ hm))⟩
    · have hms : mergeStep (.obj fs) (k₀, v₀)
          = .obj (setKey fs k₀ (combineVals (jget (.obj fs) k₀) v₀)) := by
        unfold mergeStep
        simp [hsk, jset]
      rw [hms]
      obtain ⟨rf, heq, hnd, hvals⟩ :=
        ih (setKey fs k₀ (combineVals (jget (.obj fs) k₀) v₀))
      refine ⟨rf, heq, fun h => hnd (nodup_jKeys_setKey _ _ h), ?_⟩
      intro h1 h2
      refine hvals ?_ (fun kv hm => h2 kv (List.mem_cons_of_mem _ hm))
      intro kv hm
      rcases mem_setKey hm with hm' | he
      · exact h1 kv hm'
      · rw [he]
        exact combineVals_ne_undef (h2 (k₀, v₀) (List.mem_cons_self _ _))

/-- `mergeMonsterData` on two objects is the merge fold. -/
theorem mergeMonsterData_obj (bf mf : List (String × JSON)) :
    mergeMonsterData (.obj bf) (.obj mf) = mf.foldl mergeStep (.obj bf) := by
  unfold mergeMonsterData
  simp [jsTruthy, deepCopy, entsOf]

/-- What one property reads after a full copy merge of two objects. -/
theorem jget_mergeMonsterData (bf mf : List (String × JSON)) (k : String)
    (hnd : (jKeys mf).Nodup) :
    jget (mergeMonsterData (.obj bf) (.obj mf)) k
      = match jLookup mf k with
        | some v => if skipMergeKey k then jget (.obj bf) k
                    else combineVals (jget (.obj bf) k) v
        | none => jget (.obj bf) k := by
  rw [mergeMonsterData_obj]
  exact jget_foldl_mergeStep mf (.obj bf) k hnd rfl

/-! ### The combine operation up to set-comparison of arrays -/

/-- `fieldEquiv` is reflexive. -/
theorem fieldEquiv_refl (a : JSON) : fieldEquiv a a := by
  cases a <;> simp [fieldEquiv]

/-- Equal values are field-equivalent. -/
theorem fieldEquiv_of_eq {a b : JSON} (h : a = b) : fieldEquiv a b := by
  subst h
  exact fieldEquiv_refl a

/-- With a non-object-like current value the combine is plain
replacement. -/
theorem combineVals_prim (b v : JSON) (h : isObjLike b = false) :
    combineVals b v = v := by
  cases v <;> cases b <;> simp_all [combineVals, isObjLike]

/-- Combining a value with itself changes nothing up to set-comparison:
arrays double their members, objects spread to themselves, primitives are
replaced. -/
theorem combineVals_self (b : JSON)
    (hb : ∀ gs, b = .obj gs → (jKeys gs).Nodup) :
    fieldEquiv (combineVals b b) b := by
  cases b with
  | arr xs =>
    show ∀ v, v ∈ xs ++ xs ↔ v ∈ xs
    intro v
    simp [List.mem_append]
  | obj gs =>
    have hnd := hb gs rfl
    have h : combineVals (.obj gs) (.obj gs) = .obj (spreadEnts gs gs) := rfl
    rw [h, spreadEnts_self hnd]
    exact fieldEquiv_refl _
  | undef => exact fieldEquiv_refl _
  | null => exact fieldEquiv_refl _
  | bool b => exact fieldEquiv_refl _
  | num n => exact fieldEquiv_refl _
  | str s => exact fieldEquiv_refl _

/-- Re-combining an already combined value accumulates nothing up to
set-comparison — the override concatenates the base's array a second time
(same member set), spreads absorb, primitives replace. -/
theorem combineVals_absorb (b v : JSON)
    (hb : ∀ gs, b = .obj gs → (jKeys gs).Nodup) :
    fieldEquiv (combineVals b (combineVals b v)) (combineVals b v) := by
  cases b with
  | arr xs =>
    cases v with
    | arr ys =>
      show ∀ w, w ∈ xs ++ (xs ++ ys) ↔ w ∈ xs ++ ys
      intro w
      simp [List.mem_append]
    | obj vf =>
      have h : combineVals (.arr xs) (.obj vf)
          = .obj (spreadEnts (idxEnts xs) vf) := rfl
      rw [h]
      have h2 : combineVals (.arr xs) (.obj (spreadEnts (idxEnts xs) vf))
          = .obj (spreadEnts (idxEnts xs) (spreadEnts (idxEnts xs) vf)) := rfl
      rw [h2, spreadEnts_absorb _ (nodup_jKeys_idxEnts xs)]
      exact fieldEquiv_refl _
    | undef => exact fieldEquiv_refl _
    | null => exact fieldEquiv_refl _
    | bool c => exact fieldEquiv_refl _
    | num n => exact fieldEquiv_refl _
    | str s => exact fieldEquiv_refl _
  | obj gs =>
    have hnd := hb gs rfl
    cases v with
    | arr ys =>
      have h : combineVals (.obj gs) (.arr ys)
          = .obj (spreadEnts gs (idxEnts ys)) := rfl
      rw [h]
      have h2 : combineVals (.obj gs) (.obj (spreadEnts gs (idxEnts ys)))
          = .obj (spreadEnts gs (spreadEnts gs (idxEnts ys))) := rfl
      rw [h2, spreadEnts_absorb _ hnd]
      exact fieldEquiv_refl _
    | obj vf =>
      have h : combineVals (.obj gs) (.obj vf)
          = .obj (spreadEnts gs vf) := rfl
      rw [h]
      have h2 : combineVals (.obj gs) (.obj (spreadEnts gs vf))
          = .obj (spreadEnts gs (spreadEnts gs vf)) := rfl
      rw [h2, spreadEnts_absorb _ hnd]
      exact fieldEquiv_refl _
    | undef => exact fieldEquiv_refl _
    | null => exact fieldEquiv_refl _
    | bool c => exact fieldEquiv_refl _
    | num n => exact fieldEquiv_refl _
    | str s => exact fieldEquiv_refl _
  | undef =>
    rw [combineVals_prim (JSON.undef) _ rfl, combineVals_prim (JSON.undef) _ rfl]
    exact fieldEquiv_refl _
  | null =>
    rw [combineVals_prim (JSON.null) _ rfl, combineVals_prim (JSON.null) _ rfl]
    exact fieldEquiv_refl _
  | bool c =>
    rw [combineVals_prim (JSON.bool _) _ rfl, combineVals_prim (JSON.bool _) _ rfl]
    exact fieldEquiv_refl _
  | num n =>
    rw [combineVals_prim (JSON.num _) _ rfl, combineVals_prim (JSON.num _) _ rfl]
    exact fieldEquiv_refl _
  | str s =>
    rw [combineVals_prim (JSON.str _) _ rfl, combineVals_prim (JSON.str _) _ rfl]
    exact fieldEquiv_refl _

/-- Combining the current value with an override object keeps every field
of the override readable (the override's fields win the spread). -/
theorem jget_combineVals_obj (cur : JSON) {cf : List (String × JSON)}
    {k : String} {v : JSON} (hnd : (jKeys cf).Nodup)
    (hv : jLookup cf k = some v) :
    jget (combineVals cur (.obj cf)) k = v := by
  cases cur with
  | arr xs =>
    have h : combineVals (.arr xs) (.obj cf)
        = .obj (spreadEnts (idxEnts xs) cf) := rfl
    rw [h, jget, jLookup_spreadEnts_right _ hnd hv]
    rfl
  | obj gs =>
    have h : combineVals (.obj gs) (.obj cf) = .obj (spreadEnts gs cf) := rfl
    rw [h, jget, jLookup_spreadEnts_right _ hnd hv]
    rfl
  | undef => rw [combineVals_prim JSON.undef _ rfl, jget, hv, Option.getD_some]
  | null => rw [combineVals_prim JSON.null _ rfl, jget, hv, Option.getD_some]
  | bool b => rw [combineVals_prim (JSON.bool b) _ rfl, jget, hv, Option.getD_some]
  | num n => rw [combineVals_prim (JSON.num n) _ rfl, jget, hv, Option.getD_some]
  | str s => rw [combineVals_prim (JSON.str s) _ rfl, jget, hv, Option.getD_some]

/-- Combining with an override object yields a truthy (object) value. -/
theorem jsTruthy_combineVals_obj (cur : JSON) (cf : List (String × JSON)) :
    jsTruthy (combineVals cur (.obj cf)) = true := by
  cases cur <;> rfl

/-! ### Unfolding copy resolution -/

/-- The template loop is a no-op: `fetchTemplate` finds nothing. -/
theorem foldlM_templates (ts : List JSON) (base : JSON) :
    (List.foldlM (fun acc t =>
      let templateData := fetchTemplate (jget t "name") (jget t "source")
      if jsTruthy templateData then applyTemplate acc templateData
      else pure acc) base ts : Except String JSON) = pure base := by
  induction ts generalizing base with
  | nil => rfl
  | cons t rest ih => exact ih base

/-- Copy resolution with a truthy `_copy` and a found base reduces to the
copy merge. -/
theorem processMonsterCopy_ok {m : JSON} (fetch : JSON → JSON → JSON)
    (c : JSON) (hc : jget m "_copy" = c) (hct : jsTruthy c = true)
    (hbt : jsTruthy (fetch (jget c "name") (jget c "source")) = true) :
    processMonsterCopy m fetch
      = .ok (mergeMonsterData (fetch (jget c "name") (jget c "source")) m) := by
  unfold processMonsterCopy
  rw [hc, hct]
  simp only [Bool.not_true, Bool.false_eq_true, if_false]
  rw [hbt]
  simp only [Bool.not_true, Bool.false_eq_true, if_false]
  cases htemp : jget c "_templates" with
  | arr ts =>
    by_cases hemp : ts.isEmpty
    · simp [hemp]
      rfl
    · simp [hemp, foldlM_templates]
      rfl
  | undef => rfl
  | null => rfl
  | bool b => rfl
  | num n => rfl
  | str s => rfl
  | obj fs => rfl

/-- A field of a well-formed object that reads as an object has
duplicate-free keys. -/
theorem nodup_of_jget_obj {bf gs : List (String × JSON)} {k : String}
    (hwb : jwf (.obj bf) = true) (h : jget (.obj bf) k = .obj gs) :
    (jKeys gs).Nodup := by
  rw [jget] at h
  cases hlk : jLookup bf k with
  | none =>
    rw [hlk] at h
    exact absurd h (by simp)
  | some v =>
    rw [hlk, Option.getD_some] at h
    subst h
    exact jwf_obj_nodup (jwf_obj_val hwb hlk)

/-- C1.  Copy resolution is idempotent up to set-comparison of array
fields: for every override record with a `_copy` reference whose base the
lookup finds, resolving the already resolved record again yields a record
whose every property is equal to the once-resolved record's — with
top-level array-valued fields compared as member sets, which is exactly
where re-resolution concatenates the base's entries a second time. -/
theorem processMonsterCopy_resolve_idempotent
    (mf bf cf : List (String × JSON)) (n s : String)
    (fetch : JSON → JSON → JSON)
    (hwm : jwf (.obj mf) = true) (hwb : jwf (.obj bf) = true)
    (hc : jLookup mf "_copy" = some (.obj cf))
    (hn : jLookup cf "name" = some (.str n))
    (hs : jLookup cf "source" = some (.str s))
    (hf : fetch (.str n) (.str s) = .obj bf) :
    ∃ r₁ r₂,
      processMonsterCopy (.obj mf) fetch = .ok r₁
      ∧ processMonsterCopy r₁ fetch = .ok r₂
      ∧ recordEquivSets r₂ r₁ := by
  have hndmf : (jKeys mf).Nodup := jwf_obj_nodup hwm
  have hndbf : (jKeys bf).Nodup := jwf_obj_nodup hwb
  have hwc : jwf (.obj cf) = true := jwf_obj_val hwm hc
  have hndcf : (jKeys cf).Nodup := jwf_obj_nodup hwc
  have hgetc : jget (.obj mf) "_copy" = .obj cf := by simp [jget, hc]
  have hcn : jget (.obj cf) "name" = .str n := by simp [jget, hn]
  have hcs : jget (.obj cf) "source" = .str s := by simp [jget, hs]
  have hfetch1 : fetch (jget (.obj cf) "name") (jget (.obj cf) "source")
      = .obj bf := by rw [hcn, hcs, hf]
  have h1 : processMonsterCopy (.obj mf) fetch
      = .ok (mergeMonsterData (.obj bf) (.obj mf)) := by
    have hh := processMonsterCopy_ok fetch (.obj cf) hgetc rfl
      (by rw [hfetch1]; rfl)
    rw [hfetch1] at hh
    exact hh
  obtain ⟨rf, hrf, hndrf', hvalsrf'⟩ := foldl_mergeStep_props mf bf
  have hr1 : mergeMonsterData (.obj bf) (.obj mf) = .obj rf := by
    rw [mergeMonsterData_obj, hrf]
  have hndrf : (jKeys rf).Nodup := hndrf' hndbf
  have hvalsrf : ∀ kv ∈ rf, kv.2 ≠ JSON.undef :=
    hvalsrf' (jwf_valsOk hwb) (jwf_valsOk hwm)
  have hskipcopy : skipMergeKey "_copy" = false := by simp [skipMergeKey]
  have hgetr1copy : jget (.obj rf) "_copy"
      = combineVals (jget (.obj bf) "_copy") (.obj cf) := by
    have hh := jget_mergeMonsterData bf mf "_copy" hndmf
    rw [hr1, hc] at hh
    rw [hh]
    simp [hskipcopy]
  have hc₂n : jget (combineVals (jget (.obj bf) "_copy") (.obj cf)) "name"
      = .str n := jget_combineVals_obj _ hndcf hn
  have hc₂s : jget (combineVals (jget (.obj bf) "_copy") (.obj cf)) "source"
      = .str s := jget_combineVals_obj _ hndcf hs
  have hc₂t : jsTruthy (combineVals (jget (.obj bf) "_copy") (.obj cf))
      = true := jsTruthy_combineVals_obj _ _
  have hfetch2 :
      fetch (jget (combineVals (jget (.obj bf) "_copy") (.obj cf)) "name")
        (jget (combineVals (jget (.obj bf) "_copy") (.obj cf)) "source")
      = .obj bf := by rw [hc₂n, hc₂s, hf]
  have h2 : processMonsterCopy (.obj rf) fetch
      = .ok (mergeMonsterData (.obj bf) (.obj rf)) := by
    have hh := processMonsterCopy_ok fetch _ hgetr1copy hc₂t
      (by rw [hfetch2]; rfl)
    rw [hfetch2] at hh
    exact hh
  refine ⟨.obj rf, mergeMonsterData (.obj bf) (.obj rf), ?_, h2, ?_⟩
  · rw [h1, hr1]
  intro k
  have hch1 := jget_mergeMonsterData bf mf k hndmf
  rw [hr1] at hch1
  have hch2 := jget_mergeMonsterData bf rf k hndrf
  rw [hch2]
  by_cases hskip : skipMergeKey k = true
  · have hrfk : jget (.obj rf) k = jget (.obj bf) k := by
      rw [hch1]
      cases jLookup mf k <;> simp [hskip]
    cases hlk : jLookup rf k with
    | none =>
      dsimp only
      rw [hrfk]
      exact fieldEquiv_refl _
    | some w =>
      dsimp only
      rw [if_pos hskip, hrfk]
      exact fieldEquiv_refl _
  · cases hmk : jLookup mf k with
    | none =>
      rw [hmk] at hch1
      dsimp only at hch1
      by_cases hB : jget (.obj bf) k = JSON.undef
      · have hlrf : jLookup rf k = none := by
          rw [hB] at hch1
          cases hlk : jLookup rf k with
          | none => rfl
          | some w =>
            exfalso
            have hw : w = JSON.undef := by
              have h3 : jget (.obj rf) k = w := by rw [jget, hlk]; rfl
              rw [hch1] at h3
              exact h3.symm
            exact hvalsrf _ (jLookup_mem hlk) hw
        rw [hlrf]
        dsimp only
        rw [hch1]
        exact fieldEquiv_refl _
      · have hlrf : jLookup rf k = some (jget (.obj bf) k) := by
          cases hlk : jLookup rf k with
          | none =>
            exfalso
            have h3 : jget (.obj rf) k = JSON.undef := by rw [jget, hlk]; rfl
            rw [hch1] at h3
            exact hB h3
          | some w =>
            have h3 : jget (.obj rf) k = w := by rw [jget, hlk]; rfl
            rw [hch1] at h3
            rw [← h3]
        rw [hlrf]
        dsimp only
        rw [if_neg hskip, hch1]
        apply combineVals_self
        intro gs hgs
        exact nodup_of_jget_obj hwb hgs
    | some v =>
      rw [hmk] at hch1
      dsimp only at hch1
      rw [if_neg hskip] at hch1
      have hvndef : v ≠ JSON.undef := jwf_ne_undef (jwf_obj_val hwm hmk)
      have hwne : combineVals (jget (.obj bf) k) v ≠ JSON.undef :=
        combineVals_ne_undef hvndef
      have hlrf : jLookup rf k
          = some (combineVals (jget (.obj bf) k) v) := by
        cases hlk : jLookup rf k with
        | none =>
          exfalso
          have h3 : jget (.obj rf) k = JSON.undef := by rw [jget, hlk]; rfl
          rw [hch1] at h3
          exact hwne h3
        | some w =>
          have h3 : jget (.obj rf) k = w := by rw [jget, hlk]; rfl
          rw [hch1] at h3
          rw [← h3]
      rw [hlrf]
      dsimp only
      rw [if_neg hskip, hch1]
      apply combineVals_absorb
      intro gs hgs
      exact nodup_of_jget_obj hwb hgs

/-- Witness for C1: a concrete override with a `_copy` of base `B` from
source `S`, an extra action, and a lookup that finds the base. -/
theorem processMonsterCopy_resolve_idempotent_witness :
    ∃ r₁ r₂,
      processMonsterCopy
          (.obj [("name", .str "X"),
            ("_copy", .obj [("name", .str "B"), ("source", .str "S")]),
            ("action", .arr [.obj [("name", .str "Bite")]])])
          (fun a b =>
            if jsStrictEq a (.str "B") && jsStrictEq b (.str "S")
            then .obj [("name", .str "B"), ("hp", .num 10),
              ("action", .arr [.obj [("name", .str "Claw")]])]
            else .null)
        = .ok r₁
      ∧ processMonsterCopy r₁
          (fun a b =>
            if jsStrictEq a (.str "B") && jsStrictEq b (.str "S")
            then .obj [("name", .str "B"), ("hp", .num 10),
              ("action", .arr [.obj [("name", .str "Claw")]])]
            else .null)
        = .ok r₂
      ∧ recordEquivSets r₂ r₁ := by
  exact processMonsterCopy_resolve_idempotent
    [("name", .str "X"),
      ("_copy", .obj [("name", .str "B"), ("source", .str "S")]),
      ("action", .arr [.obj [("name", .str "Bite")]])]
    [("name", .str "B"), ("hp", .num 10),
      ("action", .arr [.obj [("name", .str "Claw")]])]
    [("name", .str "B"), ("source", .str "S")]
    "B" "S" _ (by decide) (by decide) rfl rfl rfl rfl

theorem exOk_exists {e : Except String JSON} (h : exOk e = true) :
    ∃ r, e = .ok r := by
  cases e with
  | ok r => exact ⟨r, rfl⟩
  | error s => simp [exOk] at h

set_option maxHeartbeats 1600000 in
theorem applyArrMod_exOk (m : JSON) (property : String) {mod : JSON}
    (hwf : wfArrMod mod = true) :
    exOk (applyArrMod m property mod) = true := by
  rw [wfArrMod, Bool.and_eq_true, Bool.and_eq_true] at hwf
  obtain ⟨⟨hnn, hren⟩, hplain⟩ := hwf
  unfold applyArrMod
  split
  · simp [isNullish] at hnn
  · simp [isNullish] at hnn
  · dsimp only
    by_cases hRT : plainReplaceTxt (jsToString (jget mod "replace")).toList
        (jsToString (jget mod "with")).toList = true
    · simp only [if_pos hRT]
      repeat' split
      all_goals first
        | rfl
        | (simp_all only [isNullish, Bool.not_true, Bool.not_false,
             Bool.false_or, Bool.true_or, Bool.or_false, Bool.or_true];
           exact absurd hren Bool.false_ne_true)
    · have hsplit : jsStrictEq (jget mod "mode") (.str "replaceTxt") = false
          ∨ plainReplaceTxt (jsToString (jget mod "replace")).toList
              (jsToString (jget mod "with")).toList = true := by
        cases hmode : jsStrictEq (jget mod "mode") (.str "replaceTxt")
        · exact Or.inl rfl
        · rw [hmode] at hplain
          simp only [Bool.not_true, Bool.false_or] at hplain
          exact Or.inr hplain
      rcases hsplit with hq' | hq
      · rw [hq', if_neg Bool.false_ne_true]
        repeat' split
        all_goals first
          | rfl
          | (simp_all only [isNullish, Bool.not_true, Bool.not_false,
               Bool.false_or, Bool.true_or, Bool.or_false, Bool.or_true];
             exact absurd hren Bool.false_ne_true)
      · exact absurd hq hRT

theorem applyArrMod_noop_truthy_non_array (m : JSON) (property : String)
    (mod : JSON) (hnn : isNullish mod = false)
    (ht : jsTruthy (jget m property) = true)
    (hna : isArr (jget m property) = false) :
    applyArrMod m property mod = .ok m := by
  cases mod <;> first
    | simpa [isNullish] using hnn
    | (cases hj : jget m property <;> first
        | simpa [hj, isArr] using hna
        | (simp only [hj] at ht; simp [applyArrMod, ht, hj]; try rfl; done))

theorem applyArrMod_noop_falsy_non_init (m : JSON) (property : String)
    (mod : JSON) (hnn : isNullish mod = false)
    (ht : jsTruthy (jget m property) = false)
    (hni : isInitMode (jget mod "mode") = false) :
    applyArrMod m property mod = .ok m := by
  cases mod <;> first
    | simpa [isNullish] using hnn
    | (simp [applyArrMod, ht, hni]; try rfl; done)

theorem foldlM_exOk {α : Type} (f : JSON → α → Except String JSON)
    (l : List α) (init : JSON)
    (hf : ∀ m a, a ∈ l → exOk (f m a) = true) :
    exOk (l.foldlM f init) = true := by
  induction l generalizing init with
  | nil => rfl
  | cons a as ih =>
    have h1 := hf init a (List.mem_cons_self a as)
    obtain ⟨r, hr⟩ := exOk_exists h1
    rw [List.foldlM_cons, hr]
    exact ih r (fun m b hb => hf m b (List.mem_cons_of_mem a hb))

theorem applyModifications_exOk (monster mods : JSON)
    (hwf : wfArrayOnlyMods mods = true) :
    exOk (applyModifications monster mods) = true := by
  cases mods with
  | obj fs =>
    rw [applyModifications]
    apply foldlM_exOk
    intro m kv hkv
    rw [wfArrayOnlyMods] at hwf
    have hp := List.all_eq_true.mp hwf kv hkv
    rw [Bool.and_eq_true] at hp
    obtain ⟨hne, hsh⟩ := hp
    rw [decide_eq_true_iff] at hne
    rw [if_neg hne]
    cases hv : kv.2 with
    | arr l =>
      apply foldlM_exOk
      intro m' mod hmod
      rw [hv] at hsh
      have := List.all_eq_true.mp hsh mod hmod
      exact applyArrMod_exOk m' kv.1 this
    | _ => rw [hv] at hsh; simp at hsh
  | _ => simp [wfArrayOnlyMods] at hwf

/-- C4 (amended).  For object records and modification specifications
built solely of array-operation lists — every key a concrete property (no
root `"_"` block), every entry present, `renameArr` entries carrying a
`renames` object, and `replaceTxt` entries carrying a metacharacter-free
pattern with a `$`-free replacement (so their `new RegExp(mod.replace)`
compiles and behaves literally) — `applyModifications` never raises, and
an operation whose target property does not support it (a truthy non-array
target, or an absent or falsy target with a mode that does not
auto-initialize) is a silent no-op.  The object-record hypothesis matters:
on a primitive record the auto-initializing write `monster[property] = []`
throws in the strict-mode module. -/
theorem applyModifications_array_ops_no_raise
    (monster mods : JSON) (hobj : isObj monster = true)
    (hwf : wfArrayOnlyMods mods = true) :
    (∃ r, applyModifications monster mods = .ok r)
    ∧ (∀ (m : JSON) (property : String) (mod : JSON),
        isNullish mod = false →
        jsTruthy (jget m property) = true → isArr (jget m property) = false →
        applyArrMod m property mod = .ok m)
    ∧ (∀ (m : JSON) (property : String) (mod : JSON),
        isNullish mod = false →
        jsTruthy (jget m property) = false →
        isInitMode (jget mod "mode") = false →
        applyArrMod m property mod = .ok m) := by
  refine ⟨exOk_exists (applyModifications_exOk monster mods hwf), ?_, ?_⟩
  · intro m property mod h1 h2 h3
    exact applyArrMod_noop_truthy_non_array m property mod h1 h2 h3
  · intro m property mod h1 h2 h3
    exact applyArrMod_noop_falsy_non_init m property mod h1 h2 h3

theorem applyModifications_array_ops_no_raise_witness :
    (∃ r, applyModifications
        (.obj [("name", .str "X"), ("senses", .str "darkvision 60 ft."),
          ("action", .arr [.obj [("name", .str "Bite")]])])
        (.obj [("action",
            .arr [.obj [("mode", .str "appendArr"),
              ("items", .arr [.obj [("name", .str "Claw")]])],
              .obj [("mode", .str "replaceTxt"),
                ("replace", .str "Bite"), ("with", .str "Chomp")]]),
          ("senses",
            .arr [.obj [("mode", .str "removeArr"),
              ("names", .str "darkvision")]]),
          ("trait",
            .arr [.obj [("mode", .str "removeArr"),
              ("names", .str "Pack Tactics")]])])
      = .ok r)
    ∧ applyArrMod (.obj [("senses", .str "darkvision 60 ft.")]) "senses"
        (.obj [("mode", .str "removeArr"), ("names", .str "darkvision")])
      = .ok (.obj [("senses", .str "darkvision 60 ft.")])
    ∧ applyArrMod (.obj []) "trait"
        (.obj [("mode", .str "removeArr"), ("names", .str "Pack Tactics")])
      = .ok (.obj []) := by
  have h := applyModifications_array_ops_no_raise
    (.obj [("name", .str "X"), ("senses", .str "darkvision 60 ft."),
      ("action", .arr [.obj [("name", .str "Bite")]])])
    (.obj [("action",
        .arr [.obj [("mode", .str "appendArr"),
          ("items", .arr [.obj [("name", .str "Claw")]])],
          .obj [("mode", .str "replaceTxt"),
            ("replace", .str "Bite"), ("with", .str "Chomp")]]),
      ("senses",
        .arr [.obj [("mode", .str "removeArr"),
          ("names", .str "darkvision")]]),
      ("trait",
        .arr [.obj [("mode", .str "removeArr"),
          ("names", .str "Pack Tactics")]])])
    (by decide) (by decide)
  refine ⟨h.1, ?_, ?_⟩
  · exact h.2.1 _ "senses" _ (by decide) (by decide) (by decide)
  · exact h.2.2 _ "trait" _ (by decide) (by decide) (by decide)

theorem exPres_ok {e : Except String JSON} {r : JSON}
    (h : exPres e = true) (he : e = .ok r) : isObj r = true := by
  subst he; exact h

set_option maxHeartbeats 1600000 in
theorem applyArrMod_exPres {m : JSON} (hm : isObj m = true)
    (property : String) (mod : JSON) :
    exPres (applyArrMod m property mod) = true := by
  unfold applyArrMod
  split
  · rfl
  · rfl
  · dsimp only
    by_cases hRT : plainReplaceTxt (jsToString (jget mod "replace")).toList
        (jsToString (jget mod "with")).toList = true
    · simp only [if_pos hRT]
      repeat' split
      all_goals first
        | rfl
        | exact hm
        | exact isObj_jset hm _ _
        | exact isObj_jset (isObj_jset hm _ _) _ _
    · simp only [if_neg hRT]
      repeat' split
      all_goals first
        | rfl
        | exact hm
        | exact isObj_jset hm _ _
        | exact isObj_jset (isObj_jset hm _ _) _ _

theorem jsetW_exPres {m : JSON} (hm : isObj m = true) (k : String)
    (x : JSON) : exPres (jsetW m k x) = true := by
  cases m <;> simp [isObj] at hm <;> rfl

theorem setPath_exPres {m : JSON} (hm : isObj m = true) (props : List String)
    (value : JSON) : exPres (setPath m props value) = true := by
  cases props with
  | nil => exact hm
  | cons p rest =>
    cases rest with
    | nil => exact jsetW_exPres hm p value
    | cons q rest' =>
      simp only [setPath]
      split
      · cases setPath (jget m p) (q :: rest') value with
        | error e => rfl
        | ok sub => exact jsetW_exPres hm p sub
      · cases setPath (.obj []) (q :: rest') value with
        | error e => rfl
        | ok sub => exact jsetW_exPres hm p sub

theorem addSenseStr_exPres {m : JSON} (hm : isObj m = true) (s : String) :
    exPres (addSenseStr m s) = true := by
  unfold addSenseStr
  repeat' split
  all_goals first
    | rfl
    | exact hm
    | exact isObj_jset hm _ _

theorem applyNonArrMod_exPres {m : JSON} (hm : isObj m = true)
    (property : String) (modifications : JSON) :
    exPres (applyNonArrMod m property modifications) = true := by
  unfold applyNonArrMod
  split
  · rfl
  · rfl
  · split
    · split
      · rename_i elems heq
        cases findReplaceIdx (jget modifications "replace") elems 0 with
        | error e => rfl
        | ok x =>
          cases x with
          | none => exact hm
          | some i => exact isObj_jset hm _ _
      · exact hm
    · split
      · split
        · exact setPath_exPres hm _ _
        · rfl
        · rfl
        · rfl
      · exact hm

theorem foldlM_exPres {α : Type} (f : JSON → α → Except String JSON)
    (l : List α) (init : JSON) (hinit : isObj init = true)
    (hf : ∀ (m : JSON) (a : α), isObj m = true → a ∈ l →
      exPres (f m a) = true) :
    exPres (l.foldlM f init) = true := by
  induction l generalizing init with
  | nil => exact hinit
  | cons a as ih =>
    rw [List.foldlM_cons]
    cases hr : f init a with
    | error e => rfl
    | ok r =>
      exact ih r (exPres_ok (hf init a hinit (List.mem_cons_self a as)) hr)
        (fun m b hb hbm => hf m b hb (List.mem_cons_of_mem a hbm))

set_option maxHeartbeats 1600000 in
theorem applyOneRootMod_exPres {m : JSON} (hm : isObj m = true)
    (mod : JSON) : exPres (applyOneRootMod m mod) = true := by
  unfold applyOneRootMod
  split
  · rfl
  · rfl
  · dsimp only
    split
    · apply foldlM_exPres
      · split
        · exact isObj_jset hm _ _
        · exact hm
      · intro m' sense hm' hs
        cases sense <;> try dsimp only
        all_goals first
          | exact addSenseStr_exPres hm' _
          | (split <;> first
              | exact addSenseStr_exPres hm' _
              | exact hm')
    · split
      · split
        · rfl
        · rfl
        · apply foldlM_exPres
          · split
            · exact isObj_jset hm _ _
            · exact hm
          · intro m' kv hm' hkv
            repeat' split
            all_goals first
              | rfl
              | exact hm'
              | exact isObj_jset hm' _ _
      · split
        · repeat' split
          all_goals first
            | rfl
            | exact hm
            | exact isObj_jset hm _ _
        · exact hm

theorem applyRootModifications_exPres {m : JSON} (hm : isObj m = true)
    (mods : JSON) : exPres (applyRootModifications m mods) = true := by
  unfold applyRootModifications
  split
  · exact foldlM_exPres _ _ _ hm (fun m' a hm' _ => applyOneRootMod_exPres hm' a)
  · exact hm

theorem applyModifications_exPres {m : JSON} (hm : isObj m = true)
    (mods : JSON) : exPres (applyModifications m mods) = true := by
  rw [applyModifications]
  apply foldlM_exPres _ _ _ hm
  intro m' kv hm' hkv
  by_cases hk : kv.1 = "_"
  · rw [if_pos hk]
    exact applyRootModifications_exPres hm' kv.2
  · rw [if_neg hk]
    cases kv.2 with
    | arr modList =>
      exact foldlM_exPres _ _ _ hm'
        (fun m'' mod hm'' _ => applyArrMod_exPres hm'' kv.1 mod)
    | _ => exact applyNonArrMod_exPres hm' kv.1 _

theorem applyModifications_isObj {m mods r : JSON} (hm : isObj m = true)
    (h : applyModifications m mods = .ok r) : isObj r = true :=
  exPres_ok (applyModifications_exPres hm mods) h

theorem foldl_overwrite_isObj (sf : List (String × JSON)) (vm : JSON)
    (hvm : isObj vm = true) :
    isObj (sf.foldl
      (fun vm kv => if kv.1 = "_mod" then vm else jset vm kv.1 kv.2) vm)
      = true := by
  induction sf generalizing vm with
  | nil => exact hvm
  | cons kv rest ih =>
    rw [List.foldl_cons]
    by_cases hk : kv.1 = "_mod"
    · rw [if_pos hk]; exact ih vm hvm
    · rw [if_neg hk]; exact ih _ (isObj_jset hvm _ _)

theorem foldl_overwrite_jget_not_mem {sf : List (String × JSON)} {k : String}
    (hk : ¬ k ∈ jKeys sf) (vm : JSON) :
    jget (sf.foldl
      (fun vm kv => if kv.1 = "_mod" then vm else jset vm kv.1 kv.2) vm) k
      = jget vm k := by
  induction sf generalizing vm with
  | nil => rfl
  | cons kv rest ih =>
    rw [jKeys_cons] at hk
    simp only [List.mem_cons, not_or] at hk
    obtain ⟨hne, hrest⟩ := hk
    rw [List.foldl_cons, ih hrest]
    by_cases hmod : kv.1 = "_mod"
    · rw [if_pos hmod]
    · rw [if_neg hmod]
      exact jget_jset_other vm _ hne

theorem foldl_overwrite_jget {sf : List (String × JSON)}
    (hnd : (jKeys sf).Nodup) {k : String} {v : JSON}
    (hkv : jLookup sf k = some v) (hkm : k ≠ "_mod")
    (vm : JSON) (hvm : isObj vm = true) :
    jget (sf.foldl
      (fun vm kv => if kv.1 = "_mod" then vm else jset vm kv.1 kv.2) vm) k
      = v := by
  induction sf generalizing vm with
  | nil => simp [jLookup] at hkv
  | cons kv rest ih =>
    obtain ⟨k₀, v₀⟩ := kv
    rw [jKeys_cons] at hnd
    obtain ⟨hnm, hnd'⟩ := List.nodup_cons.mp hnd
    rw [List.foldl_cons]
    by_cases h0 : k₀ = k
    · subst h0
      rw [jLookup] at hkv
      rw [if_pos rfl] at hkv
      have hv : v₀ = v := Option.some.inj hkv
      subst hv
      have hkm' : ¬ (k₀ = "_mod") := hkm
      rw [if_neg hkm']
      rw [foldl_overwrite_jget_not_mem hnm]
      exact jget_jset_self hvm _ _
    · rw [jLookup] at hkv
      rw [if_neg h0] at hkv
      by_cases hmod : k₀ = "_mod"
      · rw [if_pos hmod]
        exact ih hnd' hkv vm hvm
      · rw [if_neg hmod]
        exact ih hnd' hkv _ (isObj_jset hvm _ _)

theorem mapM_ok_forall₂ {α β : Type} {f : α → Except String β} {l : List α}
    {out : List β} (h : l.mapM f = .ok out) :
    List.Forall₂ (fun a b => f a = .ok b) l out := by
  induction l generalizing out with
  | nil =>
    have h' : Except.ok ([] : List β) = Except.ok out := h
    rw [← Except.ok.inj h']
    exact List.Forall₂.nil
  | cons a as ih =>
    rw [List.mapM_cons] at h
    cases ha : f a with
    | error e => rw [ha] at h; exact Except.noConfusion h
    | ok b =>
      rw [ha] at h
      cases hbs : as.mapM f with
      | error e => rw [hbs] at h; exact Except.noConfusion h
      | ok bs =>
        rw [hbs] at h
        have h' : Except.ok (b :: bs) = Except.ok out := h
        rw [← Except.ok.inj h']
        exact List.Forall₂.cons ha (ih hbs)

theorem resolveVariantSpec_name {bf : List (String × JSON)}
    {sf : List (String × JSON)} (hnd : (jKeys sf).Nodup)
    {nm : JSON} (hnm : jLookup sf "name" = some nm)
    {v : JSON} (h : resolveVariantSpec (.obj bf) (.obj sf) = .ok v) :
    jget v "name" = nm := by
  unfold resolveVariantSpec at h
  dsimp only [deepCopy] at h
  split at h
  · cases ha : applyModifications (.obj bf) (jget (.obj sf) "_mod") with
    | error e => rw [ha] at h; exact Except.noConfusion h
    | ok m1 =>
      rw [ha] at h
      have hm1 : isObj m1 = true :=
        applyModifications_isObj (show isObj (JSON.obj bf) = true from rfl) ha
      have h' : Except.ok (jset ((entsOf (.obj sf)).foldl
          (fun vm kv => if kv.1 = "_mod" then vm else jset vm kv.1 kv.2) m1)
          "_isVariant" (.bool true)) = Except.ok v := h
      rw [← Except.ok.inj h',
        jget_jset_other _ _ (by decide : "name" ≠ "_isVariant")]
      exact foldl_overwrite_jget hnd hnm (by decide) m1 hm1
  · have h' : Except.ok (jset ((entsOf (.obj sf)).foldl
        (fun vm kv => if kv.1 = "_mod" then vm else jset vm kv.1 kv.2)
        (.obj bf))
        "_isVariant" (.bool true)) = Except.ok v := h
    rw [← Except.ok.inj h',
      jget_jset_other _ _ (by decide : "name" ≠ "_isVariant")]
    exact foldl_overwrite_jget hnd hnm (by decide) _ rfl

theorem forall₂_resolve_names {bf : List (String × JSON)}
    {specs vs : List JSON}
    (hwf : specs.all wfVariantSpec = true)
    (h : List.Forall₂ (fun s v => resolveVariantSpec (.obj bf) s = .ok v)
      specs vs) :
    vs.map (fun v => jget v "name") = specs.map (fun s => jget s "name") := by
  induction h with
  | nil => rfl
  | cons h₁ h₂ ih =>
    rename_i a b as bs
    rw [List.all_cons, Bool.and_eq_true] at hwf
    obtain ⟨hw1, hwrest⟩ := hwf
    have hex : ∃ sf, a = JSON.obj sf := by
      cases a <;> simp [wfVariantSpec] at hw1 <;> exact ⟨_, rfl⟩
    obtain ⟨sf, rfl⟩ := hex
    rw [wfVariantSpec, Bool.and_eq_true] at hw1
    obtain ⟨hnd, hnm⟩ := hw1
    rw [decide_eq_true_iff] at hnd
    obtain ⟨nm, hnm'⟩ := Option.isSome_iff_exists.mp hnm
    have hb : jget b "name" = nm := resolveVariantSpec_name hnd hnm' h₁
    have ha : jget (JSON.obj sf) "name" = nm := by simp [jget, hnm']
    rw [List.map_cons, List.map_cons, hb, ha, ih hwrest]

/-- C5.  When variant expansion of a record with a `_versions` array of
well-formed variant specs succeeds, the result is the base record itself
first — present exactly when the record is not marked
`_isVariantTemplate` — followed by one resolved record per variant spec in
declaration order, each bearing its spec's `name`; in particular distinct
spec names give distinct member names, and a template-only base with three
specs yields exactly the three variant records. -/
theorem processMonsterVariants_membership
    (bf : List (String × JSON)) (specs : List JSON)
    (hv : jLookup bf "_versions" = some (.arr specs))
    (hwf : specs.all wfVariantSpec = true)
    {out : List JSON} (h : processMonsterVariants (.obj bf) = .ok out) :
    ∃ vs,
      out = (if jsTruthy (jget (.obj bf) "_isVariantTemplate") then []
             else [.obj bf]) ++ vs
      ∧ vs.map (fun v => jget v "name") = specs.map (fun s => jget s "name")
      ∧ ((specs.map (fun s => jget s "name")).Nodup →
          (vs.map (fun v => jget v "name")).Nodup) := by
  unfold processMonsterVariants at h
  have hg : jget (.obj bf) "_versions" = .arr specs := by simp [jget, hv]
  rw [hg] at h
  dsimp only at h
  cases hm : specs.mapM (resolveVariantSpec (.obj bf)) with
  | error e => rw [hm] at h; exact Except.noConfusion h
  | ok vs =>
    rw [hm] at h
    have h' : Except.ok
        ((if jsTruthy (jget (.obj bf) "_isVariantTemplate") then []
          else [.obj bf]) ++ vs) = Except.ok out := h
    have hnames := forall₂_resolve_names hwf (mapM_ok_forall₂ hm)
    refine ⟨vs, (Except.ok.inj h').symm, hnames, ?_⟩
    intro hnodup
    rw [hnames]
    exact hnodup

theorem processMonsterVariants_membership_witness :
    ∃ vs,
      [spiritVariantOut "Air", spiritVariantOut "Land",
        spiritVariantOut "Water"]
        = (if jsTruthy (jget (.obj spiritFields) "_isVariantTemplate")
           then [] else [.obj spiritFields]) ++ vs
      ∧ vs.map (fun v => jget v "name")
          = spiritSpecs.map (fun s => jget s "name")
      ∧ ((spiritSpecs.map (fun s => jget s "name")).Nodup →
          (vs.map (fun v => jget v "name")).Nodup) :=
  processMonsterVariants_membership spiritFields spiritSpecs rfl (by decide)
    (by rfl)

/-- C7 (amended).  A record without a `_copy` whose `_versions` is a
non-empty array, displayed with no variant selection, yields the
fork-selection document: the base is listed exactly when the record is not
template-only, followed by every variant name; such a record is never
rendered as a stat block.  (Both restrictions are forced by the refuting
counterexample: on an empty `_versions` array the truthy empty array sends
the renderer into the has-variants warning, and on a record that also
carries a `_copy` the copy-resolution branch runs first and the merged
record again draws the warning — in neither case a fork-selection document
or a stat block.) -/
theorem displayCreatureDetails_fork_selection
    (creatures : List JSON) (creatureId : JSON) (fetch : JSON → JSON → JSON)
    (options : RenderOptions) (creature : JSON) (versions : List JSON)
    (hfind : creatures.find? (fun c => jsStrictEq (jget c "id") creatureId)
      = some creature)
    (hnocopy : jsTruthy (jget creature "_copy") = false)
    (hv : jget creature "_versions" = .arr versions)
    (hne : versions ≠ [])
    (hnosel : variantRequested options = false) :
    displayCreatureDetails creatures creatureId fetch options
      = .ok (.variantSelection
          (!jsTruthy (jget creature "_isVariantTemplate"))
          creature (versions.map (fun v => jget v "name")))
    ∧ ∀ c, displayCreatureDetails creatures creatureId fetch options
        ≠ .ok (.statBlock c) := by
  have hmain : displayCreatureDetails creatures creatureId fetch options
      = .ok (.variantSelection
          (!jsTruthy (jget creature "_isVariantTemplate"))
          creature (versions.map (fun v => jget v "name"))) := by
    unfold displayCreatureDetails
    rw [hfind]
    dsimp only
    rw [hnocopy]
    simp only [Bool.false_eq_true, if_false]
    rw [hv]
    dsimp only
    have hemp : versions.isEmpty = false := by
      cases versions with
      | nil => exact absurd rfl hne
      | cons a as => rfl
    rw [hemp, hnosel]
    simp only [Bool.false_eq_true, if_false]
    unfold renderVariantSelection
    rw [hv]
    dsimp only
    rw [hemp]
    simp only [Bool.false_eq_true, if_false]
    rfl
  refine ⟨hmain, ?_⟩
  intro c hc
  rw [hmain] at hc
  have := Except.ok.inj hc
  exact RenderDoc.noConfusion this

theorem displayCreatureDetails_fork_selection_witness :
    displayCreatureDetails [bestialSpirit] (.str "c1") (fun _ _ => .null)
        { variant := none, processVariants := false }
      = .ok (.variantSelection
          (!jsTruthy (jget bestialSpirit "_isVariantTemplate"))
          bestialSpirit
          ([JSON.obj [("name", .str "Land")],
            JSON.obj [("name", .str "Air")]].map (fun v => jget v "name")))
    ∧ ∀ c, displayCreatureDetails [bestialSpirit] (.str "c1")
        (fun _ _ => .null) { variant := none, processVariants := false }
        ≠ .ok (.statBlock c) :=
  displayCreatureDetails_fork_selection [bestialSpirit] (.str "c1")
    (fun _ _ => .null) { variant := none, processVariants := false }
    bestialSpirit
    [JSON.obj [("name", .str "Land")], JSON.obj [("name", .str "Air")]]
    rfl rfl rfl (by simp) rfl

/-- C8 (amended).  For every nonzero integer n, both AC normalizers map
each supported `ac` shape encoding n — the bare integer, the array headed
by the integer, the array headed by an object `\x7bac: n\x7d` (further
entries and `from` annotations allowed), and the object `\x7bac: n\x7d` —
to the integer n, and an absent `ac` to the default 10.  (The unamended
claim, stated for every integer, fails at n = 0: `\x7bac: 0\x7d` is falsy
in JS, so both normalizers return the default 10 instead of 0 — refuted
separately.) -/
theorem armorClass_shapes (n : Int) (hn : n ≠ 0) :
    (∀ m, jget m "ac" = .num n →
      getArmorClass m = .num n ∧ extract5eToolsAC m = .num n)
    ∧ (∀ m rest, jget m "ac" = .arr (.num n :: rest) →
      getArmorClass m = .num n ∧ extract5eToolsAC m = .num n)
    ∧ (∀ m fs rest, jget m "ac" = .arr (.obj fs :: rest) →
      jLookup fs "ac" = some (.num n) →
      getArmorClass m = .num n ∧ extract5eToolsAC m = .num n)
    ∧ (∀ m fs, jget m "ac" = .obj fs → jLookup fs "ac" = some (.num n) →
      getArmorClass m = .num n ∧ extract5eToolsAC m = .num n)
    ∧ (∀ m, jget m "ac" = .undef →
      getArmorClass m = .num 10 ∧ extract5eToolsAC m = .num 10) := by
  refine ⟨?_, ?_, ?_, ?_, ?_⟩
  · intro m h
    constructor
    · simp [getArmorClass, h, jsTruthy, hn]
    · simp [extract5eToolsAC, h, jsTruthy, hn]
  · intro m rest h
    constructor
    · simp [getArmorClass, h, jsTruthy]
    · simp [extract5eToolsAC, h, jsTruthy]
  · intro m fs rest h h2
    have hj : jget (JSON.obj fs) "ac" = .num n := by simp [jget, h2]
    have hk : hasKey (JSON.obj fs) "ac" = true := by simp [hasKey, h2]
    constructor
    · simp [getArmorClass, h, hj, jsTruthy, isObjLike, hn]
    · simp [extract5eToolsAC, h, hj, hk, isObjLike, jsTruthy]
  · intro m fs h h2
    have hj : jget (JSON.obj fs) "ac" = .num n := by simp [jget, h2]
    have hk : hasKey (JSON.obj fs) "ac" = true := by simp [hasKey, h2]
    constructor
    · simp [getArmorClass, h, hj, jsTruthy, isObjLike, hn]
    · simp [extract5eToolsAC, h, hj, hk, isObjLike, jsTruthy]
  · intro m h
    constructor
    · simp [getArmorClass, h, jsTruthy]
    · simp [extract5eToolsAC, h, jsTruthy]

theorem armorClass_shapes_witness :
    (getArmorClass (.obj [("ac", .num 14)]) = .num 14
      ∧ extract5eToolsAC (.obj [("ac", .num 14)]) = .num 14)
    ∧ (getArmorClass (.obj [("ac", .arr [.num 14])]) = .num 14
      ∧ extract5eToolsAC (.obj [("ac", .arr [.num 14])]) = .num 14)
    ∧ (getArmorClass (.obj [("ac", .arr [.obj [("ac", .num 14),
          ("from", .arr [.str "natural armor"])]])]) = .num 14
      ∧ extract5eToolsAC (.obj [("ac", .arr [.obj [("ac", .num 14),
          ("from", .arr [.str "natural armor"])]])]) = .num 14)
    ∧ (getArmorClass (.obj [("ac", .obj [("ac", .num 14)])]) = .num 14
      ∧ extract5eToolsAC (.obj [("ac", .obj [("ac", .num 14)])]) = .num 14)
    ∧ (getArmorClass (.obj [("name", .str "X")]) = .num 10
      ∧ extract5eToolsAC (.obj [("name", .str "X")]) = .num 10) := by
  have h := armorClass_shapes 14 (by decide)
  exact ⟨h.1 _ rfl,
    h.2.1 _ [] rfl,
    h.2.2.1 _ [("ac", .num 14), ("from", .arr [.str "natural armor"])] []
      rfl rfl,
    h.2.2.2.1 _ [("ac", .num 14)] rfl rfl,
    h.2.2.2.2 _ rfl⟩

theorem isPrefixOf_false_of_head {pat : List Char} {c : Char}
    (rest : List Char) (hhd : pat.head? = some '\x7b') (hc : c ≠ '\x7b') :
    pat.isPrefixOf (c :: rest) = false := by
  cases pat with
  | nil => exact Option.noConfusion hhd
  | cons p pt =>
    have hp : p = '\x7b' := Option.some.inj hhd
    subst hp
    show (('\x7b' == c) && pt.isPrefixOf rest) = false
    rw [beq_eq_false_iff_ne.mpr (Ne.symm hc), Bool.false_and]

theorem scanLit_id (pat : List Char) {rep : List Char}
    (hhd : pat.head? = some '\x7b') {l : List Char} (hb : '\x7b' ∉ l)
    (f : Nat) : scanLit f pat rep l = l := by
  induction l generalizing f with
  | nil => cases f <;> rfl
  | cons c rest ih =>
    cases f with
    | zero => rfl
    | succ f =>
      have hc : c ≠ '\x7b' := fun h => hb (h ▸ List.mem_cons_self c rest)
      have hpf := isPrefixOf_false_of_head rest hhd hc
      rw [scanLit, if_neg (by simp [hpf])]
      rw [ih (fun h => hb (List.mem_cons_of_mem c h)) f]

theorem scanNumTag_id (pre : List Char) {mk : List Char → List Char}
    (hhd : pre.head? = some '\x7b') {l : List Char} (hb : '\x7b' ∉ l)
    (f : Nat) : scanNumTag f pre mk l = l := by
  induction l generalizing f with
  | nil => cases f <;> rfl
  | cons c rest ih =>
    cases f with
    | zero => rfl
    | succ f =>
      have hc : c ≠ '\x7b' := fun h => hb (h ▸ List.mem_cons_self c rest)
      have hpf := isPrefixOf_false_of_head rest hhd hc
      rw [scanNumTag, if_neg (by simp [hpf])]
      rw [ih (fun h => hb (List.mem_cons_of_mem c h)) f]

theorem scanCapTag_id (pre : List Char)
    (hhd : pre.head? = some '\x7b') {l : List Char} (hb : '\x7b' ∉ l)
    (f : Nat) : scanCapTag f pre l = l := by
  induction l generalizing f with
  | nil => cases f <;> rfl
  | cons c rest ih =>
    cases f with
    | zero => rfl
    | succ f =>
      have hc : c ≠ '\x7b' := fun h => hb (h ▸ List.mem_cons_self c rest)
      have hpf := isPrefixOf_false_of_head rest hhd hc
      rw [scanCapTag, if_neg (by simp [hpf])]
      rw [ih (fun h => hb (List.mem_cons_of_mem c h)) f]

theorem scanRechargeRange_id {l : List Char} (hb : '\x7b' ∉ l)
    (f : Nat) : scanRechargeRange f l = l := by
  induction l generalizing f with
  | nil => cases f <;> rfl
  | cons c rest ih =>
    cases f with
    | zero => rfl
    | succ f =>
      have hc : c ≠ '\x7b' := fun h => hb (h ▸ List.mem_cons_self c rest)
      have hpf := isPrefixOf_false_of_head rest
        (show ("\x7b@recharge ".toList).head? = some '\x7b' from rfl) hc
      rw [scanRechargeRange]
      dsimp only
      rw [if_neg (by rw [hpf]; exact Bool.false_ne_true)]
      rw [ih (fun h => hb (List.mem_cons_of_mem c h)) f]

theorem scanRechargeCombined_id {l : List Char} (hb : '\x7b' ∉ l)
    (f : Nat) : scanRechargeCombined f l = l := by
  induction l generalizing f with
  | nil => cases f <;> rfl
  | cons c rest ih =>
    cases f with
    | zero => rfl
    | succ f =>
      have hc : c ≠ '\x7b' := fun h => hb (h ▸ List.mem_cons_self c rest)
      have hpf := isPrefixOf_false_of_head rest
        (show ("\x7b@recharge ".toList).head? = some '\x7b' from rfl) hc
      rw [scanRechargeCombined]
      dsimp only
      rw [if_neg (by rw [hpf]; exact Bool.false_ne_true)]
      rw [ih (fun h => hb (List.mem_cons_of_mem c h)) f]

theorem containsSub_cons_false {c : Char} {rest pat : List Char}
    (h : containsSub (c :: rest) pat = false) :
    pat.isPrefixOf (c :: rest) = false ∧ containsSub rest pat = false := by
  rw [containsSub] at h
  split at h
  · exact absurd h (by simp)
  · rename_i hnp
    exact ⟨Bool.eq_false_iff.mpr hnp, h⟩

theorem scanWord_id (tok rep : List Char) {l : List Char}
    (hns : containsSub l tok = false) (prev : Option Char) (f : Nat) :
    scanWord f tok rep prev l = l := by
  induction l generalizing prev f with
  | nil => cases f <;> rfl
  | cons c rest ih =>
    cases f with
    | zero => rfl
    | succ f =>
      obtain ⟨hpf, hrest⟩ := containsSub_cons_false hns
      rw [scanWord, if_neg (by simp [hpf])]
      rw [ih hrest (some c) f]

/-- Identity of the renderer pipeline on directive-free text. -/
theorem parseTagsPipeline_id (context : TagContext) {l : List Char}
    (hb : '\x7b' ∉ l)
    (hpb : containsSub l "PB".toList = false)
    (hsl : containsSub l "summonSpellLevel".toList = false) :
    parseTagsPipeline context l = l := by
  unfold parseTagsPipeline
  unfold runLit runNumTag runCapTag runWord
  dsimp only
  rw [scanLit_id "\x7b@atk mw\x7d".toList rfl hb,
    scanLit_id "\x7b@atk rw\x7d".toList rfl hb,
    scanLit_id "\x7b@atk ms\x7d".toList rfl hb,
    scanLit_id "\x7b@atk rs\x7d".toList rfl hb,
    scanNumTag_id "\x7b@hit ".toList rfl hb,
    scanLit_id "\x7b@hitYourSpellAttack\x7d".toList rfl hb,
    scanCapTag_id "\x7b@damage ".toList rfl hb,
    scanCapTag_id "\x7b@condition ".toList rfl hb,
    scanNumTag_id "\x7b@dc ".toList rfl hb,
    scanWord_id _ _ hpb none,
    scanWord_id _ _ hsl none,
    scanLit_id "\x7b@recharge\x7d".toList rfl hb,
    scanNumTag_id "\x7b@recharge ".toList rfl hb,
    scanRechargeRange_id hb,
    scanLit_id "\x7b@h\x7d".toList rfl hb]

/-- Identity of the data-manager tag replacements (before the whitespace
cleanup) on brace-free text. -/
theorem parse5eTextPipeline_eq_normWS {l : List Char}
    (hb : '\x7b' ∉ l) :
    parse5eTextPipeline l = normWS l := by
  unfold parse5eTextPipeline
  unfold runLit runNumTag runCapTag
  dsimp only
  rw [scanLit_id "\x7b@atk mw\x7d".toList rfl hb,
    scanLit_id "\x7b@atk rw\x7d".toList rfl hb,
    scanLit_id "\x7b@atk ms\x7d".toList rfl hb,
    scanLit_id "\x7b@atk rs\x7d".toList rfl hb,
    scanNumTag_id "\x7b@hit ".toList rfl hb,
    scanLit_id "\x7b@h\x7d".toList rfl hb,
    scanCapTag_id "\x7b@damage ".toList rfl hb,
    scanCapTag_id "\x7b@dice ".toList rfl hb,
    scanCapTag_id "\x7b@condition ".toList rfl hb,
    scanCapTag_id "\x7b@spell ".toList rfl hb,
    scanNumTag_id "\x7b@dc ".toList rfl hb,
    scanLit_id "\x7b@recharge\x7d".toList rfl hb,
    scanRechargeCombined_id hb]

theorem mem_collapseWS {x : Char} {l : List Char}
    (h : x ∈ collapseWS l) : x ∈ l ∨ x = ' ' := by
  induction l with
  | nil => simp [collapseWS] at h
  | cons c rest ih =>
    cases rest with
    | nil =>
      rw [collapseWS] at h
      split at h
      · simp at h; exact Or.inr h
      · simp at h; exact Or.inl (by simp [h])
    | cons c2 rest' =>
      rw [collapseWS] at h
      split at h
      · rcases ih h with h' | h'
        · exact Or.inl (List.mem_cons_of_mem c h')
        · exact Or.inr h'
      · rcases List.mem_cons.mp h with h' | h'
        · subst h'
          split
          · exact Or.inr rfl
          · exact Or.inl (List.mem_cons_self _ _)
        · rcases ih h' with h'' | h''
          · exact Or.inl (List.mem_cons_of_mem c h'')
          · exact Or.inr h''

theorem okWS_collapseWS {x : Char} {l : List Char}
    (h : x ∈ collapseWS l) (hws : jsWS x = true) : x = ' ' := by
  induction l with
  | nil => simp [collapseWS] at h
  | cons c rest ih =>
    cases rest with
    | nil =>
      rw [collapseWS] at h
      split at h
      · simpa using h
      · rename_i hnws
        simp at h
        subst h
        exact absurd hws (by simpa using hnws)
    | cons c2 rest' =>
      rw [collapseWS] at h
      split at h
      · exact ih h
      · rcases List.mem_cons.mp h with h' | h'
        · subst h'
          by_cases hc : jsWS c = true
          · rw [if_pos hc]
          · rw [if_neg hc] at hws
            exact absurd hws hc
        · exact ih h'

theorem head?_collapseWS (c : Char) (rest : List Char) :
    (collapseWS (c :: rest)).head?
      = some (if jsWS c = true then ' ' else c) := by
  induction rest generalizing c with
  | nil =>
    rw [collapseWS]
    split <;> rfl
  | cons c2 rest' ih =>
    rw [collapseWS]
    split
    · rename_i hrun
      rw [Bool.and_eq_true] at hrun
      rw [ih c2, if_pos hrun.2, if_pos hrun.1]
    · rfl

theorem chain'_collapseWS (l : List Char) :
    List.Chain' noWSPair (collapseWS l) := by
  induction l with
  | nil => simp [collapseWS]
  | cons c rest ih =>
    cases rest with
    | nil =>
      rw [collapseWS]
      split <;> simp
    | cons c2 rest' =>
      rw [collapseWS]
      split
      · exact ih
      · rename_i hrun
        rw [List.chain'_cons']
        refine ⟨?_, ih⟩
        intro b hb
        rw [head?_collapseWS c2 rest'] at hb
        have hb' : b = if jsWS c2 = true then ' ' else c2 := by
          have := (by simpa using hb :
            (if jsWS c2 = true then ' ' else c2) = b)
          exact this.symm
        intro ⟨hwa, hwb⟩
        by_cases h2 : jsWS c2 = true
        · have hwc : jsWS c = true := by
            split at hwa
            · rename_i hc; exact hc
            · exact hwa
          exact hrun (by rw [hwc, h2]; rfl)
        · rw [if_neg h2] at hb'
          subst hb'
          exact h2 hwb

theorem collapseWS_eq_self {l : List Char}
    (h1 : ∀ x ∈ l, jsWS x = true → x = ' ')
    (h2 : List.Chain' noWSPair l) : collapseWS l = l := by
  induction l with
  | nil => rfl
  | cons c rest ih =>
    cases rest with
    | nil =>
      rw [collapseWS]
      split
      · rename_i hws
        rw [h1 c (List.mem_cons_self _ _) hws]
      · rfl
    | cons c2 rest' =>
      rw [collapseWS]
      split
      · rename_i hrun
        rw [Bool.and_eq_true] at hrun
        exact absurd ⟨hrun.1, hrun.2⟩ (List.chain'_cons.mp h2).1
      · have hrest := (List.chain'_cons.mp h2).2
        have h1' : ∀ x ∈ c2 :: rest', jsWS x = true → x = ' ' :=
          fun x hx => h1 x (List.mem_cons_of_mem c hx)
        rw [ih h1' hrest]
        split
        · rename_i hws
          rw [h1 c (List.mem_cons_self _ _) hws]
        · rfl

theorem chain'_suffix {l₁ l₂ : List Char} (h : l₁ <:+ l₂)
    (hc : List.Chain' noWSPair l₂) : List.Chain' noWSPair l₁ := by
  obtain ⟨t, ht⟩ := h
  rw [← ht] at hc
  exact hc.right_of_append

theorem chain'_noWSPair_reverse {l : List Char}
    (h : List.Chain' noWSPair l) : List.Chain' noWSPair l.reverse := by
  rw [List.chain'_reverse]
  exact h.imp (fun a b hab ⟨x, y⟩ => hab ⟨y, x⟩)

theorem head?_dropWhile_not (p : Char → Bool) (l : List Char) :
    ∀ c, (l.dropWhile p).head? = some c → p c = false := by
  induction l with
  | nil => intro c h; simp at h
  | cons a t ih =>
    intro c h
    rw [List.dropWhile_cons] at h
    split at h
    · exact ih c h
    · rename_i hna
      have : a = c := by simpa using h
      subst this
      simpa using hna

theorem getLast?_dropWhile (p : Char → Bool) (l : List Char)
    (h : l.dropWhile p ≠ []) :
    (l.dropWhile p).getLast? = l.getLast? := by
  induction l with
  | nil => simp at h
  | cons a t ih =>
    rw [List.dropWhile_cons] at h ⊢
    by_cases hp : p a = true
    · rw [if_pos hp] at h ⊢
      rw [ih h]
      cases t with
      | nil => rw [List.dropWhile] at h; simp at h
      | cons b t' => rw [List.getLast?_cons_cons]
    · rw [if_neg hp]

theorem dropWhile_eq_self_of_head {p : Char → Bool} {l : List Char}
    (h : ∀ c, l.head? = some c → p c = false) : l.dropWhile p = l := by
  cases l with
  | nil => rfl
  | cons a t =>
    rw [List.dropWhile_cons, if_neg]
    rw [h a rfl]
    simp

theorem mem_trimWS {x : Char} {l : List Char} (h : x ∈ trimWS l) :
    x ∈ l := by
  unfold trimWS at h
  rw [List.mem_reverse] at h
  have h2 := (List.dropWhile_suffix jsWS).subset h
  rw [List.mem_reverse] at h2
  exact (List.dropWhile_suffix jsWS).subset h2

theorem chain'_trimWS {l : List Char} (h : List.Chain' noWSPair l) :
    List.Chain' noWSPair (trimWS l) := by
  unfold trimWS
  exact chain'_noWSPair_reverse
    (chain'_suffix (List.dropWhile_suffix jsWS)
      (chain'_noWSPair_reverse
        (chain'_suffix (List.dropWhile_suffix jsWS) h)))

theorem getLast?_trimWS_not_ws {l : List Char} :
    ∀ c, (trimWS l).getLast? = some c → jsWS c = false := by
  intro c h
  unfold trimWS at h
  rw [List.getLast?_reverse] at h
  exact head?_dropWhile_not jsWS _ c h

theorem head?_trimWS_not_ws {l : List Char} :
    ∀ c, (trimWS l).head? = some c → jsWS c = false := by
  intro c h
  unfold trimWS at h
  rw [List.head?_reverse] at h
  by_cases hB : (l.dropWhile jsWS).reverse.dropWhile jsWS = []
  · rw [hB] at h; simp at h
  · rw [getLast?_dropWhile jsWS _ hB, List.getLast?_reverse] at h
    exact head?_dropWhile_not jsWS _ c h

theorem trimWS_eq_self {l : List Char}
    (hh : ∀ c, l.head? = some c → jsWS c = false)
    (hl : ∀ c, l.getLast? = some c → jsWS c = false) : trimWS l = l := by
  unfold trimWS
  rw [dropWhile_eq_self_of_head hh]
  rw [dropWhile_eq_self_of_head
    (fun c hc => hl c (by rwa [List.head?_reverse] at hc))]
  exact List.reverse_reverse l

theorem normWS_idem (l : List Char) : normWS (normWS l) = normWS l := by
  have h1u : ∀ x ∈ trimWS (collapseWS l), jsWS x = true → x = ' ' :=
    fun x hx => okWS_collapseWS (mem_trimWS hx)
  have h2u : List.Chain' noWSPair (trimWS (collapseWS l)) :=
    chain'_trimWS (chain'_collapseWS l)
  show trimWS (collapseWS (trimWS (collapseWS l))) = trimWS (collapseWS l)
  rw [collapseWS_eq_self h1u h2u]
  exact trimWS_eq_self head?_trimWS_not_ws getLast?_trimWS_not_ws

theorem mem_normWS {x : Char} {l : List Char} (h : x ∈ normWS l) :
    x ∈ l ∨ x = ' ' := mem_collapseWS (mem_trimWS h)

/-- C9 (amended).  Both markup parsers are idempotent on directive-free
text: for every context and every string in which the character `\x7b`
and the character sequences `PB` and `summonSpellLevel` do not occur at
all (not even inside a longer word), the renderer's parser returns the
string unchanged (so a second application changes nothing), and the data
manager's parser returns the string with every `\s`-whitespace run
collapsed to one space and the ends trimmed (`normWS`, over the full JS
`\s` class), on which a second application is the identity.  (The
unamended claim — idempotence on arbitrary already-expanded text — is
refuted separately: expanding `\x7b\x7b@damage @atk mw\x7d\x7d` once
yields `\x7b@atk mw\x7d`, which a second expansion rewrites again.) -/
theorem markup_idempotent_directive_free (context : TagContext) (s : String)
    (hb : '\x7b' ∉ s.toList)
    (hpb : containsSub s.toList "PB".toList = false)
    (hsl : containsSub s.toList "summonSpellLevel".toList = false) :
    parseFormattingTags (.str s) context = s
    ∧ parseFormattingTags (.str (parseFormattingTags (.str s) context))
        context
        = parseFormattingTags (.str s) context
    ∧ parseDnd5eToolsText (.str s) = String.mk (normWS s.toList)
    ∧ parseDnd5eToolsText (.str (parseDnd5eToolsText (.str s)))
        = parseDnd5eToolsText (.str s) := by
  have p1 : parseFormattingTags (.str s) context = s := by
    unfold parseFormattingTags
    dsimp only
    by_cases hs : s = ""
    · rw [if_pos hs, hs]
    · rw [if_neg hs, parseTagsPipeline_id context hb hpb hsl]
      rfl
  have p3 : parseDnd5eToolsText (.str s) = String.mk (normWS s.toList) := by
    unfold parseDnd5eToolsText
    dsimp only
    by_cases hs : s = ""
    · rw [if_pos hs, hs]
      rfl
    · rw [if_neg hs, parse5eTextPipeline_eq_normWS hb]
  have hbu : '\x7b' ∉ normWS s.toList := by
    intro hmem
    rcases mem_normWS hmem with h | h
    · exact hb h
    · exact absurd h (by decide)
  have p4 : parseDnd5eToolsText (.str (parseDnd5eToolsText (.str s)))
      = parseDnd5eToolsText (.str s) := by
    rw [p3]
    unfold parseDnd5eToolsText
    dsimp only
    by_cases hu : String.mk (normWS s.toList) = ""
    · rw [if_pos hu, hu]
    · rw [if_neg hu]
      show String.mk (parse5eTextPipeline (normWS s.toList)) = _
      rw [parse5eTextPipeline_eq_normWS hbu, normWS_idem]
  refine ⟨p1, ?_, p3, p4⟩
  rw [p1]
  exact p1

theorem markup_idempotent_directive_free_witness :
    parseFormattingTags
        (.str "Melee Weapon Attack: +4 to hit, one target.") {}
      = "Melee Weapon Attack: +4 to hit, one target."
    ∧ parseFormattingTags
        (.str (parseFormattingTags
          (.str "Melee Weapon Attack: +4 to hit, one target.") {})) {}
      = parseFormattingTags
          (.str "Melee Weapon Attack: +4 to hit, one target.") {}
    ∧ parseDnd5eToolsText
        (.str "Melee Weapon Attack: +4 to hit, one target.")
      = String.mk
          (normWS "Melee Weapon Attack: +4 to hit, one target.".toList)
    ∧ parseDnd5eToolsText (.str (parseDnd5eToolsText
        (.str "Melee Weapon Attack: +4 to hit, one target.")))
      = parseDnd5eToolsText
          (.str "Melee Weapon Attack: +4 to hit, one target.") :=
  markup_idempotent_directive_free {}
    "Melee Weapon Attack: +4 to hit, one target."
    (by decide) (by decide) (by decide)

/-- C3.  The claim says a root-level `maxSize` modification clamps every
size code to at most the given maximum.  The code computes
`sizeOrder[mod.max] || 5`, and `sizeOrder['T']` is `0`, which is falsy: a
`maxSize` of `T` (Tiny) therefore clamps against Gargantuan instead, and a
Medium creature passes through unchanged — contradicting both the spec and
the code's own comment ("Ensure the monster's size is no larger than the
specified max").  This theorem evaluates the interpreter at the failing
input: the size stays `"M"` instead of being clamped to `"T"`. -/
theorem maxSize_tiny_clamp_bug :
    applyModifications sizeMRecord maxSizeTinySpec
      = .ok (.obj [("size", .str "M")]) := by
  rfl

/-- C2.  The claim (and the selection state machine of the spec) says that
requesting an existing variant by name returns the fully resolved stat
block for that variant.  The code finds and resolves the variant, but the
resolved record still carries the deep-copied `_versions` list, and the
options passed to `renderCreatureStatBlock` do not set `processVariants` —
so the renderer's guard fires and the has-variants warning document is
returned instead of the variant's stat block.  This theorem evaluates the
display entry point at the failing input. -/
theorem displayCreatureDetails_variant_selection_bug :
    displayCreatureDetails [bestialSpirit] (.str "c1") (fun _ _ => .null)
        { variant := some "Land" }
      = .ok (.variantWarning [.str "Land", .str "Air"]) := by
  rfl

/-- C4 counterexample.  The claim says `applyModifications` never raises
for a well-formed modification spec and silently skips inapplicable
operations.  A root-level `addSenses` against a record whose `senses` is a
(truthy, non-array) bare string calls `monster.senses.push`, which does not
exist on strings: a `TypeError` is raised instead of skipping the
operation. -/
theorem applyModifications_addSenses_raises :
    applyModifications stringSensesRecord addSensesSpec
      = .error "TypeError: monster.senses.push is not a function" := by
  rfl

/-- C8 counterexample.  The claim quantifies over every integer `n`; at
`n = 0` the guard `if (!monster.ac) return 10` treats the falsy `0` as
missing, and both normalizers return the default `10` instead of `0`. -/
theorem armorClass_zero_not_returned :
    getArmorClass acZeroRecord = .num 10
      ∧ extract5eToolsAC acZeroRecord = .num 10
      ∧ JSON.num 10 ≠ JSON.num 0 := by
  refine ⟨rfl, rfl, ?_⟩
  intro h
  cases h

/-- C9 counterexample.  The claim says markup expansion is idempotent for
every string.  Expanding `{{@damage @atk mw}}` once substitutes the
captured damage argument verbatim, splicing the surrounding braces into the
fresh directive `{@atk mw}`; a second expansion then rewrites that to
`Melee Weapon Attack:`.  Both the renderer's parser and the data manager's
parser behave this way. -/
theorem parseFormattingTags_not_idempotent :
    parseFormattingTags (.str (parseFormattingTags (.str damageNestString) {})) {}
        ≠ parseFormattingTags (.str damageNestString) {}
      ∧ parseDnd5eToolsText (.str (parseDnd5eToolsText (.str damageNestString)))
        ≠ parseDnd5eToolsText (.str damageNestString) := by
  constructor
  · decide
  · decide

/-- C7 counterexample.  The claim quantifies over every record still
carrying an unresolved `_versions` list; both exclusions of the amended
theorem are forced by a divergence.  First, for a record whose `_versions`
list is empty (and which is not template-only), the display entry point
skips the selection dialog (its guard wants a non-empty list) and falls
into the renderer, whose own guard sees the truthy empty array and returns
the warning document — which does not list the base, contradicting the
claimed fork-selection document that lists the base when the record is not
template-only.  Second, for a record that also carries a `_copy`
reference, the entry point takes the copy-resolution branch before ever
reaching the selection dialog: the merge passes `_versions` through, the
renderer's guard fires on the merged record, and the warning document —
again not a fork-selection document — is returned. -/
theorem displayCreatureDetails_empty_versions_warning :
    displayCreatureDetails [emptyVersionsRecord] (.str "c1")
        (fun _ _ => .null) {}
        = .ok (.variantWarning [])
      ∧ (Except.ok (.variantWarning []) : Except String RenderDoc)
        ≠ .ok (.variantSelection true emptyVersionsRecord [])
      ∧ displayCreatureDetails [copyVersionsRecord] (.str "c2")
          (fun _ _ => .obj [("name", .str "B"), ("hp", .num 10)]) {}
          = .ok (.variantWarning [.str "A"])
      ∧ (Except.ok (.variantWarning [.str "A"]) : Except String RenderDoc)
        ≠ .ok (.variantSelection true copyVersionsRecord [.str "A"]) := by
  refine ⟨rfl, ?_, ?_, ?_⟩
  · intro h
    injection h with h2
    exact RenderDoc.noConfusion h2
  · rfl
  · intro h
    injection h with h2
    exact RenderDoc.noConfusion h2

/-- C10.  The markup parser is total at its JS interface: every input that
is not a string, or is the empty string, yields the empty string without
raising (the source guards `if (!text || typeof text !== 'string')`). -/
theorem parseFormattingTags_total_non_string (v : JSON) (context : TagContext)
    (h : ∀ s, v = .str s → s = "") :
    parseFormattingTags v context = "" := by
  cases v with
  | str s =>
    have hs := h s rfl
    simp [parseFormattingTags, hs]
  | undef => rfl
  | null => rfl
  | bool b => rfl
  | num n => rfl
  | arr xs => rfl
  | obj fs => rfl

/-- Witness for C10 at the concrete non-string input `5` (and the empty
string). -/
theorem parseFormattingTags_total_non_string_witness :
    (∀ s, JSON.num 5 = .str s → s = "")
      ∧ parseFormattingTags (.num 5) {} = ""
      ∧ parseFormattingTags (.str "") {} = "" := by
  constructor
  · intro s h
    cases h
  constructor
  · exact parseFormattingTags_total_non_string (.num 5) {} (fun s h => by cases h)
  · exact parseFormattingTags_total_non_string (.str "") {} (fun s h => by
      injection h with h2
      exact h2.symm)

end D5e
